import Mathlib

/-!
Verification development for the LineVul_pa dataset pipeline.

The Python sources embedded here are:
* `src/data/reposvul_dataset/01_transform_dataset.py`
  (`clean_code`, `to_int_label`, `extract_code_and_label`, `read_jsonl`,
  `iter_rows`, `stratified_split`);
* `src/data/llm_datasets/03_augment_with_llm.py`
  (`stable_hash`, `ensure_reposvul_schema`, `deduplicate_by_code`,
  the `train_only` augmentation merge of `main`, `add_index_column`);
* `src/data/primevul_dataset/02_transform_dataset.py`
  (`looks_like_cpp`, `is_c_function`, `extract_c_functions`).

Code text is modelled as `List Char`; JSON values as the inductive `JVal`;
pandas data frames as `DF` (an ordered column-name list plus row-major
cells).
-/

namespace LineVul

/-! ## Definitions (embedded from the Python sources) -/

/-! ## Text normalization (`clean_code`) -/

/-- The ASCII whitespace characters removed by Python's `str.strip()`. -/
def isWS (c : Char) : Bool :=
  c = ' ' || c = '\t' || c = '\n' || c = '\x0d' || c = '\x0b' || c = '\x0c'

/-- The NUL character removed by `clean_code`. -/
def nullChar : Char := '\x00'

/-- `s.replace("\x00", "")`. -/
def stripNull (l : List Char) : List Char := l.filter (fun c => c != nullChar)

/-- `s.replace("\r\n", "\n").replace("\r", "\n")`: Python replaces every
`"\r\n"` pair by `"\n"` first and then every remaining `"\r"`, which equals
this single left-to-right scan. -/
def normNL : List Char → List Char
  | [] => []
  | [c] => [if c = '\x0d' then '\x0a' else c]
  | c :: c' :: rest =>
      if c = '\x0d' then
        if c' = '\x0a' then '\x0a' :: normNL rest
        else '\x0a' :: normNL (c' :: rest)
      else c :: normNL (c' :: rest)

/-- Leading-whitespace removal (half of `str.strip()`). -/
def trimLeft (l : List Char) : List Char := l.dropWhile isWS

/-- Trailing-whitespace removal (the other half of `str.strip()`). -/
def trimRight (l : List Char) : List Char := (trimLeft l.reverse).reverse

/-- Python `str.strip()` on ASCII text. -/
def pyStrip (l : List Char) : List Char := trimRight (trimLeft l)

/-- The text transformation applied by `clean_code` to a non-empty string:
strip NUL bytes, normalize line endings to `\n`, trim outer whitespace. -/
def cleanChars (l : List Char) : List Char := pyStrip (normNL (stripNull l))

/-! ## JSON values

`json.loads` output is modelled by `JVal`: `null` is Python `None`,
numbers are rationals (JSON numbers are decimal literals; every literal
relevant here is representable exactly). -/

inductive JVal where
  | null : JVal
  | bool : Bool → JVal
  | num : ℚ → JVal
  | str : List Char → JVal
  | arr : List JVal → JVal
  | obj : List (String × JVal) → JVal

/-- A decoded JSON object (a Python dict produced by `json.loads`). -/
abbrev JObj := List (String × JVal)

/-- Python `d.get(k)`: `None` when the key is absent. -/
def getField (d : JObj) (k : String) : JVal :=
  match d.lookup k with
  | some v => v
  | none => JVal.null

/-- Python `d.get(k, default)`. -/
def getFieldD (d : JObj) (k : String) (dflt : JVal) : JVal :=
  match d.lookup k with
  | some v => v
  | none => dflt

/-- Python truthiness of a decoded JSON value. -/
def truthy : JVal → Bool
  | .null => false
  | .bool b => b
  | .num q => q != 0
  | .str s => s != []
  | .arr xs => !xs.isEmpty
  | .obj fs => !fs.isEmpty

/-- Python `a or b` on decoded JSON values. -/
def pyOr (a b : JVal) : JVal := if truthy a then a else b

mutual

/-- Python `str()` of a decoded JSON value.  Strings pass through
unchanged — the only case any claim depends on.  Numbers are rendered via
`Rat`'s printer and containers in an abbreviated bracketed form; Python's
exact `repr` formatting of nested containers is not modelled because no
extracted field ever stringifies one in the claims below. -/
def pyStr : JVal → List Char
  | .null => "None".toList
  | .bool b => if b then "True".toList else "False".toList
  | .num q => (toString q).toList
  | .str s => s
  | .arr xs => '[' :: pyStrList xs ++ [']']
  | .obj fs => Char.ofNat 123 :: pyStrFields fs ++ [Char.ofNat 125]

def pyStrList : List JVal → List Char
  | [] => []
  | [v] => pyStr v
  | v :: rest => pyStr v ++ ',' :: ' ' :: pyStrList rest

def pyStrFields : List (String × JVal) → List Char
  | [] => []
  | [(k, v)] => k.toList ++ ':' :: ' ' :: pyStr v
  | (k, v) :: rest => k.toList ++ ':' :: ' ' :: pyStr v ++ ',' :: ' ' :: pyStrFields rest

end

/-- `clean_code` from `01_transform_dataset.py` applied to a raw decoded
value: `if not s: return ""` then `str(s)` followed by NUL-stripping,
newline normalization and stripping. -/
def clean_code (v : JVal) : List Char :=
  if truthy v then cleanChars (pyStr v) else []

/-- `as_list` from `01_transform_dataset.py`: `None` becomes `[]`, a list
stays itself, anything else is wrapped in a one-element list. -/
def as_list (x : JVal) : List JVal :=
  match x with
  | .null => []
  | .arr xs => xs
  | v => [v]

/-- Python `int(x)` on a number: truncation toward zero (`Int.tdiv` is
T-division). -/
def pyTrunc (q : ℚ) : Int := Int.tdiv q.num q.den

/-- `to_int_label` from `01_transform_dataset.py`. -/
def to_int_label (x : JVal) : Option Int :=
  match x with
  | .null => none
  | .bool b => some (if b then 1 else 0)
  | .num q =>
      let v := pyTrunc q
      if v = 0 ∨ v = 1 then some v else none
  | .str s =>
      let t := (pyStrip s).map Char.toLower
      if t = "0".toList then some 0
      else if t = "1".toList then some 1
      else if t = "false".toList then some 0
      else if t = "true".toList then some 1
      else none
  | _ => none

/-! ## `extract_code_and_label` (`01_transform_dataset.py`) -/

/-- The nested helper `get_fb_code_and_label`. -/
def get_fb_code_and_label (x : JVal) : List Char × Option Int :=
  match x with
  | .obj fs =>
      (clean_code (pyOr (getField fs "function")
          (pyOr (getField fs "code_before") (pyOr (getField fs "code") (.str [])))),
       to_int_label (getField fs "target"))
  | .str s => (clean_code (.str s), none)
  | _ => ([], none)

/-- The nested helper `get_fa_code`. -/
def get_fa_code (x : JVal) : List Char :=
  match x with
  | .obj fs => clean_code (pyOr (getField fs "function") (pyOr (getField fs "code") (.str [])))
  | .str s => clean_code (.str s)
  | _ => []

/-- `extract_code_and_label` from `01_transform_dataset.py`, returning
`(before_code, label, after_code)`. -/
def extract_code_and_label (detail : JObj) : List Char × Option Int × List Char :=
  let fb := getField detail "function_before"
  let fa := getField detail "function_after"
  let fbItems := as_list fb
  let bl : List Char × Option Int :=
    match fbItems with
    | [] => ([], none)
    | x :: _ => get_fb_code_and_label x
  let before_code :=
    if bl.1 = [] then
      clean_code (pyOr (getField detail "code_before") (pyOr (getField detail "code") (.str [])))
    else bl.1
  let label :=
    match bl.2 with
    | none => to_int_label (getField detail "target")
    | some l => some l
  let after0 :=
    match as_list fa with
    | [] => []
    | x :: _ => get_fa_code x
  let after1 := if after0 = [] then clean_code (pyOr (getField detail "patch") (.str [])) else after0
  let after_code := if after1 = [] then before_code else after1
  (before_code, label, after_code)

/-! ## Row builder (`iter_rows`, `01_transform_dataset.py`) -/

/-- The per-reason skip counters accumulated by `iter_rows`. -/
structure Stats where
  skip_no_details : Nat
  skip_detail_not_dict : Nat
  skip_no_code : Nat
  skip_no_label : Nat
  kept : Nat
deriving DecidableEq, Repr

/-- One row yielded by `iter_rows`.  Metadata fields are stored in the
textual form `csv.writer` later emits (`str()` of the raw value); only
`processed_func` and `target` are consulted by later stages. -/
structure OutRow where
  processed_func : List Char
  target : Int
  vul_func_with_fix : List Char
  cve_id : List Char
  cwe_id : List Char
  commit_id : List Char
  file_path : List Char
  file_language : List Char
deriving DecidableEq, Repr

/-- The body of `iter_rows`'s inner loop for a single detail record. -/
def processDetail (obj : JObj) (st : Stats) (d : JVal) : List OutRow × Stats :=
  match d with
  | .obj fs =>
      let file_lang := pyStrip (pyStr (pyOr (getField fs "file_language")
          (pyOr (getField obj "cve_language") (.str []))))
      let r := extract_code_and_label fs
      if r.1 = [] then ([], { st with skip_no_code := st.skip_no_code + 1 })
      else
        match r.2.1 with
        | none => ([], { st with skip_no_label := st.skip_no_label + 1 })
        | some l =>
            ([{ processed_func := r.1
                target := l
                vul_func_with_fix := r.2.2
                cve_id := pyStr (pyOr (getField obj "cve_id") (.str []))
                cwe_id := pyStr (pyOr (getField obj "cwe_id") (.str []))
                commit_id := pyStr (pyOr (getField obj "commit_id") (.str []))
                file_path := pyStr (pyOr (getField fs "file_path") (.str []))
                file_language := file_lang }],
             { st with kept := st.kept + 1 })
  | _ => ([], { st with skip_detail_not_dict := st.skip_detail_not_dict + 1 })

/-- `iter_rows`'s inner loop over `as_list(details)`. -/
def processDetails (obj : JObj) : Stats → List JVal → List OutRow × Stats
  | st, [] => ([], st)
  | st, d :: ds =>
      let p := processDetail obj st d
      let rest := processDetails obj p.2 ds
      (p.1 ++ rest.1, rest.2)

/-- `iter_rows`'s outer loop body for one decoded object. -/
def processObj (st : Stats) (obj : JObj) : List OutRow × Stats :=
  match getField obj "details" with
  | .null => ([], { st with skip_no_details := st.skip_no_details + 1 })
  | v => processDetails obj st (as_list v)

def iterRowsAux : Stats → List JObj → List OutRow × Stats
  | st, [] => ([], st)
  | st, obj :: rest =>
      let p := processObj st obj
      let q := iterRowsAux p.2 rest
      (p.1 ++ q.1, q.2)

/-- `iter_rows` from `01_transform_dataset.py` over an already-decoded
object stream, returning the yielded rows and the final counters. -/
def iter_rows (objs : List JObj) : List OutRow × Stats :=
  iterRowsAux ⟨0, 0, 0, 0, 0⟩ objs

/-! ## Stratified splitter (`stratified_split`, `01_transform_dataset.py`) -/

/-- The process-global `random` module state. -/
structure RandState where
  val : Nat
deriving DecidableEq, Repr

/-- Modelled pseudo-random step (a linear-congruential generator standing
in for CPython's Mersenne Twister; every property proved below depends
only on the generator being a deterministic function of its state). -/
def randNext (g : RandState) : Nat × RandState :=
  let s := (g.val * 1103515245 + 12345) % 2147483648
  (s, ⟨s⟩)

/-- `random.seed(seed)`: resets the global generator state to a function
of the seed alone. -/
def pySeed (seed : Int) : RandState :=
  ⟨seed.natAbs % 2147483648⟩

/-- `random._randbelow(n)` for `n ≥ 1`. -/
def randBelow (g : RandState) (n : Nat) : Nat × RandState :=
  let p := randNext g
  (p.1 % n, p.2)

/-- `random.shuffle`, modelled as a generator-driven draw-without-
replacement permutation (CPython performs an in-place Fisher-Yates walk;
only determinism and being a permutation are used below).  The fuel
argument equals the list length at every call. -/
def shuffleAux : Nat → List α → RandState → List α × RandState
  | 0, _, g => ([], g)
  | _ + 1, [], g => ([], g)
  | n + 1, x :: xs, g =>
      let p := randBelow g (xs.length + 1)
      let rest := shuffleAux n ((x :: xs).eraseIdx p.1) p.2
      ((x :: xs).getD p.1 x :: rest.1, rest.2)

/-- `random.shuffle` on a list, threading the global generator state. -/
def pyShuffle (l : List α) (g : RandState) : List α × RandState :=
  shuffleAux l.length l g

/-- Python slice-bound normalization for step-1 slices `b[i:j]` over a
list of length `n`: a negative bound counts from the end (and is clamped
at 0 when it underruns), a nonnegative bound is capped at `n`. -/
def pySliceIdx (n : Nat) (i : Int) : Nat :=
  if i < 0 then ((n : Int) + i).toNat else min i.toNat n

/-- `stratified_split` from `01_transform_dataset.py`.  `g0` is the
process-global `random` state at call time; the function's first action is
`random.seed(seed)`, which discards it.  `int(n * ratio)` is truncation of
the exact rational product toward zero.  The three slices
`b[:n_tr]`, `b[n_tr:n_tr+n_va]`, `b[n_tr+n_va:]` use Python slice
semantics: each bound is normalized by `pySliceIdx`, so a negative bound
(possible when a ratio is negative) wraps around from the end of the
bucket. -/
def stratified_split (g0 : RandState) (rows : List OutRow) (seed : Int)
    (ratios : ℚ × ℚ × ℚ) :
    (List OutRow × List OutRow × List OutRow) × RandState :=
  let g := pySeed seed
  let pos := rows.filter (fun r => r.target == 1)
  let neg := rows.filter (fun r => r.target == 0)
  let ps := pyShuffle pos g
  let ns := pyShuffle neg ps.2
  let splitBucket (b : List OutRow) : List OutRow × List OutRow × List OutRow :=
    let n := b.length
    let n_tr := pyTrunc ((n : ℚ) * ratios.1)
    let n_va := pyTrunc ((n : ℚ) * ratios.2.1)
    (b.take (pySliceIdx n n_tr),
     (b.take (pySliceIdx n (n_tr + n_va))).drop (pySliceIdx n n_tr),
     b.drop (pySliceIdx n (n_tr + n_va)))
  let pb := splitBucket ps.1
  let nb := splitBucket ns.1
  let ts := pyShuffle (pb.1 ++ nb.1) ns.2
  let vs := pyShuffle (pb.2.1 ++ nb.2.1) ts.2
  let es := pyShuffle (pb.2.2 ++ nb.2.2) vs.2
  ((ts.1, vs.1, es.1), es.2)

/-! ## Data frames (`03_augment_with_llm.py`) -/

/-- A pandas cell: a string, an integer, or NaN.  (Float-valued cells
other than NaN do not occur in the modelled flows.) -/
inductive Cell where
  | str : List Char → Cell
  | int : Int → Cell
  | nan : Cell
deriving DecidableEq, Repr

/-- A pandas `DataFrame`: ordered column names plus row-major cells.
Well-formed frames have every row of the same length as `cols`. -/
structure DF where
  cols : List String
  rows : List (List Cell)
deriving DecidableEq, Repr

def DF.hasCol (df : DF) (c : String) : Bool := df.cols.contains c

/-- `df[c] = x`: pandas appends a new column at the end. -/
def DF.addColConst (df : DF) (c : String) (x : Cell) : DF :=
  ⟨df.cols ++ [c], df.rows.map (fun r => r ++ [x])⟩

/-- The cell of row `r` in the column named `c`. -/
def lookupCell (cols : List String) (r : List Cell) (c : String) : Cell :=
  r.getD (List.indexOf c cols) Cell.nan

/-- `df[c] = df[c].map(f)`-style single-column update. -/
def DF.mapCol (df : DF) (c : String) (f : Cell → Cell) : DF :=
  ⟨df.cols,
   df.rows.map (fun r =>
     r.set (List.indexOf c df.cols) (f (r.getD (List.indexOf c df.cols) Cell.nan)))⟩

/-- `df[cs]`: column projection in the order of `cs`. -/
def DF.select (df : DF) (cs : List String) : DF :=
  ⟨cs, df.rows.map (fun r => cs.map (fun c => lookupCell df.cols r c))⟩

/-- The cell at column `c` of row `i`. -/
def DF.cell (df : DF) (c : String) (i : Nat) : Cell :=
  lookupCell df.cols (df.rows.getD i []) c

/-- Python `str()` of a cell (`astype(str)` applies this elementwise; a
pandas NaN stringifies to `"nan"`). -/
def cellToStr : Cell → List Char
  | .str s => s
  | .int n => (toString n).toList
  | .nan => "nan".toList

/-- `.fillna(dflt)` on one cell. -/
def fillnaCell (dflt : Cell) : Cell → Cell
  | .nan => dflt
  | c => c

/-- `.astype(str)` on one cell. -/
def astypeStr (c : Cell) : Cell := .str (cellToStr c)

/-- `pd.to_numeric(·, errors="coerce")` on a string cell: optional
surrounding whitespace, optional sign, decimal digits with an optional
fractional part.  (Exponent notation and literal inf/nan spellings are not
modelled; no claim exercises them.) -/
def parsePyFloat (s : List Char) : Option ℚ :=
  let t0 := pyStrip s
  let st : ℚ × List Char :=
    match t0 with
    | '-' :: rest => (-1, rest)
    | '+' :: rest => (1, rest)
    | _ => (1, t0)
  let ip := st.2.takeWhile Char.isDigit
  let rest := st.2.dropWhile Char.isDigit
  let intPart : Nat := ip.foldl (fun acc c => acc * 10 + (c.toNat - 48)) 0
  match rest with
  | [] => if ip.isEmpty then none else some (st.1 * intPart)
  | '.' :: frac =>
      if frac.all Char.isDigit && (!ip.isEmpty || !frac.isEmpty) then
        some (st.1 * ((intPart : ℚ) +
          (frac.foldl (fun acc c => acc * 10 + (c.toNat - 48)) 0 : Nat) / (10 ^ frac.length)))
      else none
  | _ => none

/-- `pd.to_numeric(·, errors="coerce")` on a cell. -/
def toNumericCell : Cell → Option ℚ
  | .int n => some (n : ℚ)
  | .str s => parsePyFloat s
  | .nan => none

/-- The canonical column list `required_cols` of `ensure_reposvul_schema`. -/
def requiredCols : List String :=
  ["processed_func", "target", "vul_func_with_fix", "cve_id", "cwe_id",
   "commit_id", "file_path", "file_language", "flaw_line_index", "flaw_line"]

/-- A single-quote character (used in the `cwe_id` sentinel text). -/
def sq : Char := Char.ofNat 39

/-- The string-encoded sentinel list for `cwe_id`. -/
def cweSentinel : List Char := ['[', sq, '-', sq, ']']

/-- The fill value used for a missing column `c`: `"[]"` for
`flaw_line_index`, `""` for `flaw_line`, `"-"` for everything else. -/
def defaultCell (c : String) : Cell :=
  if c = "flaw_line_index" then .str "[]".toList
  else if c = "flaw_line" then .str []
  else .str "-".toList

/-- The missing-column fill loop of `ensure_reposvul_schema`. -/
def addMissing : DF → List String → DF
  | df, [] => df
  | df, c :: cs => addMissing (if df.hasCol c then df else df.addColConst c (defaultCell c)) cs

/-- The per-column "Normalize" assignments of `ensure_reposvul_schema`,
in source order.  Each `fillna` call follows `astype(str)` in the source
and is modelled faithfully by `fillnaCell` composed after the
stringification (it can never see a NaN there).  The `target` chain is
`to_numeric(errors="coerce").fillna(0).astype(int)`. -/
def normalizeOps : List (String × (Cell → Cell)) :=
  [("processed_func", fun c => .str (cleanChars (cellToStr c))),
   ("target", fun c => .int (pyTrunc ((toNumericCell c).getD 0))),
   ("vul_func_with_fix", fun c => fillnaCell (.str "-".toList) (astypeStr c)),
   ("cve_id", fun c => fillnaCell (.str "-".toList) (astypeStr c)),
   ("cwe_id", fun c => fillnaCell (.str cweSentinel) (astypeStr c)),
   ("commit_id", fun c => fillnaCell (.str "-".toList) (astypeStr c)),
   ("file_path", fun c => fillnaCell (.str "-".toList) (astypeStr c)),
   ("file_language", fun c => fillnaCell (.str "C".toList) (astypeStr c)),
   ("flaw_line_index", fun c => fillnaCell (.str "[]".toList) (astypeStr c)),
   ("flaw_line", fun c => fillnaCell (.str []) (astypeStr c))]

def applyOps : DF → List (String × (Cell → Cell)) → DF
  | df, [] => df
  | df, op :: ops => applyOps (df.mapCol op.1 op.2) ops

/-- `ensure_reposvul_schema` from `03_augment_with_llm.py`: fill missing
canonical columns, normalize each canonical column, and return the frame
restricted to `required_cols` in fixed order. -/
def ensure_reposvul_schema (df : DF) : DF :=
  (applyOps (addMissing df requiredCols) normalizeOps).select requiredCols

/-- `stable_hash` (SHA-256 hex digest of the code text) modelled as the
text itself: all uses compare digests for equality only, and the model
takes the digest map to be injective (exact-content matching, as the spec
defines fingerprints). -/
def stable_hash (t : List Char) : List Char := t

/-- The dedup key of a row: `stable_hash` of its `processed_func` cell. -/
def rowKey (cols : List String) (r : List Cell) : List Char :=
  stable_hash (cellToStr (lookupCell cols r "processed_func"))

/-- `drop_duplicates(subset=["_h"])` with pandas' default first-occurrence
retention, threading the set of hashes already seen. -/
def dedupRows (key : List Cell → List Char) : List (List Cell) → List (List Char) → List (List Cell)
  | [], _ => []
  | r :: rs, seen =>
      if seen.contains (key r) then dedupRows key rs seen
      else r :: dedupRows key rs (key r :: seen)

/-- `deduplicate_by_code` from `03_augment_with_llm.py` (the temporary
`_h` hash column is added and dropped inside the source function; the net
effect on the frame is first-occurrence filtering by hash). -/
def deduplicate_by_code (df : DF) : DF :=
  ⟨df.cols, dedupRows (rowKey df.cols) df.rows []⟩

/-- `df[df["processed_func"].str.len() > 0]`: keep rows with a non-empty
string code cell. -/
def dropEmptyCode (df : DF) : DF :=
  ⟨df.cols,
   df.rows.filter (fun r =>
     match lookupCell df.cols r "processed_func" with
     | .str s => !s.isEmpty
     | _ => false)⟩

/-- `pd.concat([a, b], ignore_index=True)` for frames with identical
column lists (the only shape the merge concatenates). -/
def concatDF (a b : DF) : DF := ⟨a.cols, a.rows ++ b.rows⟩

/-- `add_index_column` from `03_augment_with_llm.py`: insert a 0-based
`index` column as the first column. -/
def add_index_column (df : DF) : DF :=
  ⟨"index" :: df.cols, df.rows.mapIdx (fun i r => Cell.int i :: r)⟩

/-- The `train_only` branch of the augmentation merge in `main` of
`03_augment_with_llm.py` (lines 259-281): concatenate synth onto train
only, re-filter empty code, re-normalize, and index every output. -/
def merge_train_only (train val test synth : DF) : DF × DF × DF :=
  (add_index_column (ensure_reposvul_schema (dropEmptyCode (concatDF train synth))),
   add_index_column (ensure_reposvul_schema (dropEmptyCode val)),
   add_index_column (ensure_reposvul_schema (dropEmptyCode test)))

/-! ## primevul extractor (`02_transform_dataset.py`) and JSONL readers -/

/-- The C++ marker substrings of `looks_like_cpp`, in source order. -/
def cppMarkers : List (List Char) :=
  ["::".toList, "template<".toList, "std::".toList, "using namespace".toList,
   "new ".toList, "delete ".toList, "noexcept".toList, "nullptr".toList,
   "friend ".toList, "virtual ".toList, "public:".toList, "private:".toList,
   "protected:".toList, "constexpr".toList, "decltype".toList, "typename".toList,
   "explicit".toList, "mutable".toList, "static_cast<".toList, "dynamic_cast<".toList,
   "reinterpret_cast<".toList, "const_cast<".toList]

/-- `looks_like_cpp` from `02_transform_dataset.py`: any marker occurs in
the lowercased function text. -/
def looks_like_cpp (func : List Char) : Bool :=
  let lower := func.map Char.toLower
  cppMarkers.any (fun m => decide (m <:+: lower))

/-- `is_c_function` from `02_transform_dataset.py`. -/
def is_c_function (fs : JObj) : Bool :=
  match getFieldD fs "func" (.str []) with
  | .str f =>
      if f.isEmpty then false
      else if looks_like_cpp f then false
      else f.contains '(' && f.contains ')' &&
           f.contains (Char.ofNat 123) && f.contains (Char.ofNat 125)
  | _ => false

mutual

/-- `json.dumps` of a decoded value (string escaping inside the rendered
text is not modelled; no claim depends on the rendered form). -/
def jsonDumps : JVal → List Char
  | .null => "null".toList
  | .bool b => if b then "true".toList else "false".toList
  | .num q => (toString q).toList
  | .str s => Char.ofNat 34 :: s ++ [Char.ofNat 34]
  | .arr xs => '[' :: jsonDumpsList xs ++ [']']
  | .obj fs => Char.ofNat 123 :: jsonDumpsFields fs ++ [Char.ofNat 125]

def jsonDumpsList : List JVal → List Char
  | [] => []
  | [v] => jsonDumps v
  | v :: rest => jsonDumps v ++ ',' :: ' ' :: jsonDumpsList rest

def jsonDumpsFields : List (String × JVal) → List Char
  | [] => []
  | [(k, v)] => k.toList ++ ':' :: ' ' :: jsonDumps v
  | (k, v) :: rest => k.toList ++ ':' :: ' ' :: jsonDumps v ++ ',' :: ' ' :: jsonDumpsFields rest

end

/-- What `csv.writer` writes for a raw decoded value (`None` becomes the
empty field, everything else its `str()`). -/
def csvStr (v : JVal) : List Char :=
  match v with
  | .null => []
  | v => pyStr v

/-- One CSV row written by `extract_c_functions`. -/
structure PRow where
  idx : Nat
  processed_func : List Char
  target : List Char
  vul_func_with_fix : List Char
  cve_id : List Char
  cwe_id : List Char
  commit_id : List Char
  file_path : List Char
  file_language : List Char
  flaw_line_index : List Char
  flaw_line : List Char
deriving DecidableEq, Repr

/-- The row built from one kept primevul sample at running index `ridx`. -/
def primevulRow (fs : JObj) (ridx : Nat) : PRow :=
  { idx := ridx
    processed_func := pyStr (getFieldD fs "func" (.str []))
    target := csvStr (getField fs "target")
    vul_func_with_fix := "-".toList
    cve_id := csvStr (getFieldD fs "cve" (.str []))
    cwe_id :=
      match getField fs "cwe" with
      | .null => []
      | v => jsonDumps v
    commit_id := csvStr (getFieldD fs "commit_id" (.str []))
    file_path := csvStr (getFieldD fs "file_name" (.str []))
    file_language := "c".toList
    flaw_line_index := "[]".toList
    flaw_line := [] }

/-- The line loop of `extract_c_functions`.  An input line is `none` when
`json.loads` would raise `JSONDecodeError` on it: the source catches that
exception and continues with the next line (counting the line in `total`
only).  `ridx` is the running row index (which the source increments in
lockstep with `kept`). -/
def primevulAux : List (Option JObj) → Nat → Nat → Nat → List PRow × Nat × Nat
  | [], total, kept, _ => ([], total, kept)
  | none :: rest, total, kept, ridx => primevulAux rest (total + 1) kept ridx
  | some fs :: rest, total, kept, ridx =>
      if is_c_function fs then
        let p := primevulAux rest (total + 1) (kept + 1) (ridx + 1)
        (primevulRow fs ridx :: p.1, p.2)
      else primevulAux rest (total + 1) kept ridx

/-- `extract_c_functions` from `02_transform_dataset.py`, returning the
written rows together with the reported `(total, kept)` counters (the only
counters the source keeps — there is no malformed-line counter). -/
def extract_c_functions (lines : List (Option JObj)) : List PRow × Nat × Nat :=
  primevulAux lines 0 0 0

/-- `read_jsonl` from `01_transform_dataset.py`: `yield json.loads(line)`
with **no** exception handler — a line on which `json.loads` raises
(modelled as `none`) aborts the whole iteration. -/
def read_jsonl : List (Option JObj) → Except Unit (List JObj)
  | [] => .ok []
  | none :: _ => .error ()
  | some j :: rest => (read_jsonl rest).map (fun l => j :: l)

/-- The `--all_jsonl` path of `main` in `01_transform_dataset.py`:
`list(iter_rows(...))` materializes the full stream before anything is
written, so a decode error anywhere aborts the run with no output. -/
def transform_all (lines : List (Option JObj)) : Except Unit (List OutRow × Stats) :=
  (read_jsonl lines).map iter_rows

/-- Well-formedness of a frame: every row has one cell per column. -/
def DF.WF (df : DF) : Prop := ∀ r ∈ df.rows, r.length = df.cols.length

instance (df : DF) : Decidable df.WF := by
  unfold DF.WF
  infer_instance

/-- The column transformation an op-list applies to the column named `c`. -/
def opFun (ops : List (String × (Cell → Cell))) (c : String) : Cell → Cell :=
  match ops.lookup c with
  | some f => f
  | none => id

/-- The normalization applied by `ensure_reposvul_schema` to the column
named `c`. -/
def normOp (c : String) : Cell → Cell := opFun normalizeOps c

/-- Spec-side first-occurrence filter ("retains the first occurrence, by
original order, of each distinct fingerprint"): a row is kept iff no
already-kept row carries its fingerprint. -/
def keepFirst (key : List Cell → List Char) (rows : List (List Cell)) : List (List Cell) :=
  rows.foldl (fun acc r => if acc.any (fun r2 => key r2 == key r) then acc else acc ++ [r]) []

/-! ## Spec-side definitions and claim-instance data -/

/-- First truthy value of an ordered candidate list, else the empty
string — the spec's ordered `(predicate, accessor)` rule list. -/
def firstTruthy : List JVal → JVal
  | [] => .str []
  | v :: rest => if truthy v then v else firstTruthy rest

/-- Spec-side resolution of the first before-slot element: a dictionary
is read through the ordered key priority (function, code_before, code) and
a target-like label; a plain string is the before-code with no label. -/
def specBeforeSlot (x : JVal) : List Char × Option Int :=
  match x with
  | .obj fs =>
      (clean_code (firstTruthy [getField fs "function", getField fs "code_before", getField fs "code"]),
       to_int_label (getField fs "target"))
  | .str s => (cleanChars s, none)
  | _ => ([], none)

/-- Spec-side resolution of the first after-slot element (function key,
then generic code key, or the string itself). -/
def specAfterSlot (x : JVal) : List Char :=
  match x with
  | .obj fs => clean_code (firstTruthy [getField fs "function", getField fs "code"])
  | .str s => cleanChars s
  | _ => []

/-- The extraction contract as the spec words it: before-code from the
first element of the before slot, else the detail's own code_before/code;
label from the slot, else the detail's target; after-code from the after
slot, else the patch field, else a copy of before-code. -/
def extract_spec (detail : JObj) : List Char × Option Int × List Char :=
  let slotB := as_list (getField detail "function_before")
  let fromSlot :=
    match slotB with
    | [] => (([] : List Char), (none : Option Int))
    | x :: _ => specBeforeSlot x
  let before :=
    if fromSlot.1 ≠ [] then fromSlot.1
    else clean_code (firstTruthy [getField detail "code_before", getField detail "code"])
  let label :=
    match fromSlot.2 with
    | some l => some l
    | none => to_int_label (getField detail "target")
  let afterSlot :=
    match as_list (getField detail "function_after") with
    | [] => ([] : List Char)
    | x :: _ => specAfterSlot x
  let patch := clean_code (getField detail "patch")
  let after := if afterSlot ≠ [] then afterSlot else if patch ≠ [] then patch else before
  (before, label, after)

/-- The per-row action of a column-op list over a fixed column list. -/
def opsRowFun (cols : List String) : List (String × (Cell → Cell)) → List Cell → List Cell
  | [], r => r
  | op :: ops, r =>
      opsRowFun cols ops
        (r.set (List.indexOf op.1 cols) (op.2 (r.getD (List.indexOf op.1 cols) Cell.nan)))

/-- The per-row action of the whole normalizer when the frame already has
exactly the canonical columns. -/
def ensureRowFun (r : List Cell) : List Cell :=
  requiredCols.map (fun c => lookupCell requiredCols (opsRowFun requiredCols normalizeOps r) c)

/-- All rows of the frame carry a non-empty string code cell (the spec's
schema invariant for persisted rows). -/
def noEmptyCode (df : DF) : Prop :=
  ∀ r ∈ df.rows,
    (match lookupCell df.cols r "processed_func" with
     | Cell.str s => !s.isEmpty
     | _ => false) = true

instance (df : DF) : Decidable (noEmptyCode df) := by
  unfold noEmptyCode
  infer_instance

/-- The content fingerprint of row `i` of a frame. -/
def rowFingerprint (df : DF) (i : Nat) : List Char :=
  stable_hash (cellToStr (DF.cell df "processed_func" i))

/-- A canonical-schema row with the given code text and label. -/
def rowOf (code : List Char) (tgt : Int) : List Cell :=
  [Cell.str code, Cell.int tgt, Cell.str "-".toList, Cell.str "-".toList,
   Cell.str cweSentinel, Cell.str "-".toList, Cell.str "-".toList,
   Cell.str "C".toList, Cell.str "[]".toList, Cell.str []]

def tC1 : DF := ⟨requiredCols, [rowOf "a".toList 1]⟩

def vC1 : DF := ⟨requiredCols, [rowOf "x".toList 0]⟩

def teC1 : DF := ⟨requiredCols, [rowOf "b".toList 0]⟩

def sC1 : DF := ⟨requiredCols, [rowOf "x".toList 1]⟩

def dC2 : JObj :=
  [("function_before", JVal.obj [("function", JVal.str "int f(x)".toList),
      ("target", JVal.bool true)]),
   ("function_after", JVal.obj [("function", JVal.str "int g(x)".toList)])]

def rowP (t : Int) : OutRow := ⟨"p".toList, t, [], [], [], [], [], []⟩

def poolC4 : List OutRow := [rowP 1, rowP 0, rowP 1, rowP 0, rowP 0]

/-- The three slice lengths `splitBucket` produces on a bucket of length
`n` (the slices depend on the bucket's contents only through its length). -/
def bucketSliceLens (n : Nat) (ratios : ℚ × ℚ × ℚ) : Nat × Nat × Nat :=
  let n_tr := pyTrunc ((n : ℚ) * ratios.1)
  let n_va := pyTrunc ((n : ℚ) * ratios.2.1)
  let x := pySliceIdx n n_tr
  let y := pySliceIdx n (n_tr + n_va)
  (min x n, min y n - x, n - y)

/-- A pool of four identical positive rows, on which negative split
ratios exhibit Python's wrap-around slicing. -/
def poolC4cex : List OutRow := [rowP 1, rowP 1, rowP 1, rowP 1]

def dC7 : DF := ⟨["processed_func", "target"], [[Cell.str "x".toList, Cell.int 1]]⟩

def dC8 : DF :=
  ⟨["target", "extra"], [[Cell.str "1".toList, Cell.nan], [Cell.int 5, Cell.str "y".toList]]⟩

def dC9 : DF := ⟨["processed_func", "target"], [[Cell.str "x".toList, Cell.str "abc".toList]]⟩

def objsC9 : List JObj :=
  [[("details", JVal.obj [("function_before",
      JVal.obj [("function", JVal.str "int f(x)".toList), ("target", JVal.bool true)])])]]

def fsC9 : JObj := [("code_before", JVal.str "void g(x)".toList)]

def rowDefaultC9 : OutRow := ⟨[], 5, [], [], [], [], [], []⟩

def objC10 : JObj := [("cve_id", JVal.str "CVE-1".toList)]

/-! ## Lemmas and claim theorems -/

theorem mem_normNL {c : Char} :
    ∀ {l : List Char}, c ∈ normNL l → c ∈ l ∨ c = '\x0a' := by
  intro l
  induction l using normNL.induct with
  | case1 => simp [normNL]
  | case2 c' =>
      by_cases h : c' = '\x0d' <;> simp [normNL, h] <;> intro hc <;> simp [hc]
  | case3 rest ih =>
      intro hmem
      simp only [normNL, if_pos rfl, List.mem_cons, if_true, eq_self_iff_true] at hmem
      rcases hmem with h | h
      · exact Or.inr h
      · rcases ih h with h' | h'
        · exact Or.inl (by simp [h'])
        · exact Or.inr h'
  | case4 a b hne ih =>
      intro hmem
      simp only [normNL, List.mem_cons, if_true, eq_self_iff_true, if_neg hne] at hmem
      rcases hmem with h | h
      · exact Or.inr h
      · rcases ih h with h' | h'
        · exact Or.inl (by simp [h'])
        · exact Or.inr h'
  | case5 c0 a b hne ih =>
      intro hmem
      simp only [normNL, if_neg hne, List.mem_cons] at hmem
      rcases hmem with h | h
      · exact Or.inl (by simp [h])
      · rcases ih h with h' | h'
        · exact Or.inl (by simp [h'])
        · exact Or.inr h'

theorem normNL_no_cr : ∀ (l : List Char), ∀ c ∈ normNL l, c ≠ '\x0d' := by
  intro l
  induction l using normNL.induct with
  | case1 => simp [normNL]
  | case2 c' => by_cases h : c' = '\x0d' <;> simp [normNL, h]
  | case3 rest ih =>
      intro c hmem
      simp only [normNL, List.mem_cons, if_true, eq_self_iff_true] at hmem
      rcases hmem with h | h
      · simp [h]
      · exact ih c h
  | case4 a b hne ih =>
      intro c hmem
      simp only [normNL, List.mem_cons, if_true, eq_self_iff_true, if_neg hne] at hmem
      rcases hmem with h | h
      · simp [h]
      · exact ih c h
  | case5 c0 a b hne ih =>
      intro c hmem
      simp only [normNL, if_neg hne, List.mem_cons] at hmem
      rcases hmem with h | h
      · simpa [h] using hne
      · exact ih c h

theorem normNL_of_no_cr : ∀ (l : List Char), (∀ c ∈ l, c ≠ '\x0d') → normNL l = l := by
  intro l
  induction l using normNL.induct with
  | case1 => simp [normNL]
  | case2 c' =>
      intro h
      have := h c' (by simp)
      simp [normNL, this]
  | case3 rest ih =>
      intro h
      exact absurd rfl (h '\x0d' (by simp))
  | case4 a b hne ih =>
      intro h
      exact absurd rfl (h '\x0d' (by simp))
  | case5 c0 a b hne ih =>
      intro h
      have hrest : ∀ c ∈ a :: b, c ≠ '\x0d' := fun c hc => h c (List.mem_cons_of_mem _ hc)
      simp [normNL, if_neg hne, ih hrest]

theorem stripNull_no_null (l : List Char) : ∀ c ∈ stripNull l, c ≠ nullChar := by
  intro c hc
  have := List.of_mem_filter hc
  simpa using this

theorem stripNull_of_no_null (l : List Char) (h : ∀ c ∈ l, c ≠ nullChar) :
    stripNull l = l := by
  apply List.filter_eq_self.2
  intro a ha
  simpa using h a ha

theorem dropWhile_idem (p : Char → Bool) (l : List Char) :
    (l.dropWhile p).dropWhile p = l.dropWhile p := by
  cases hd : l.dropWhile p with
  | nil => simp
  | cons c t =>
      have hc : p c = false := by
        have := List.head_dropWhile_not p l (by simp [hd])
        simpa [hd] using this
      simp [List.dropWhile_cons, hc]

theorem trimLeft_idem (l : List Char) : trimLeft (trimLeft l) = trimLeft l :=
  dropWhile_idem isWS l

theorem trimRight_prefixOf (l : List Char) : trimRight l <+: l := by
  have h : trimLeft l.reverse <:+ l.reverse := List.dropWhile_suffix isWS
  refine List.reverse_suffix.1 ?_
  simpa [trimRight] using h

theorem trimRight_idem (l : List Char) : trimRight (trimRight l) = trimRight l := by
  unfold trimRight
  rw [List.reverse_reverse, trimLeft_idem]

theorem trimLeft_trimRight_trimLeft (l : List Char) :
    trimLeft (trimRight (trimLeft l)) = trimRight (trimLeft l) := by
  cases hm : trimRight (trimLeft l) with
  | nil => simp [trimLeft]
  | cons c t =>
      have hpre : trimRight (trimLeft l) <+: trimLeft l := trimRight_prefixOf _
      rw [hm] at hpre
      obtain ⟨s, hs⟩ := hpre
      have hc : isWS c = false := by
        have hh := List.head?_dropWhile_not isWS l
        have hts : List.dropWhile isWS l = c :: (t ++ s) := by
          simpa [trimLeft] using hs.symm
        rw [hts] at hh
        simpa using hh
      simp [trimLeft, List.dropWhile_cons, hc]

theorem pyStrip_idem (l : List Char) : pyStrip (pyStrip l) = pyStrip l := by
  unfold pyStrip
  rw [trimLeft_trimRight_trimLeft, trimRight_idem]

theorem trimLeft_subset (l : List Char) : ∀ c ∈ trimLeft l, c ∈ l :=
  fun _ hc => (List.dropWhile_sublist isWS).subset hc

theorem trimRight_subset (l : List Char) : ∀ c ∈ trimRight l, c ∈ l :=
  fun _ hc => (trimRight_prefixOf l).sublist.subset hc

theorem pyStrip_subset (l : List Char) : ∀ c ∈ pyStrip l, c ∈ l :=
  fun c hc => trimLeft_subset l c (trimRight_subset (trimLeft l) c hc)

theorem cleanChars_idem (l : List Char) : cleanChars (cleanChars l) = cleanChars l := by
  have hnonull : ∀ c ∈ cleanChars l, c ≠ nullChar := by
    intro c hc
    have h1 : c ∈ normNL (stripNull l) := pyStrip_subset _ c hc
    rcases mem_normNL h1 with h2 | h2
    · exact stripNull_no_null l c h2
    · rw [h2]; decide
  have hnocr : ∀ c ∈ cleanChars l, c ≠ '\x0d' := by
    intro c hc
    exact normNL_no_cr (stripNull l) c (pyStrip_subset _ c hc)
  have hstep : cleanChars (cleanChars l) = pyStrip (normNL (stripNull (cleanChars l))) := rfl
  rw [hstep, stripNull_of_no_null _ hnonull, normNL_of_no_cr _ hnocr]
  exact pyStrip_idem _

theorem getD_cons_eraseIdx_perm (d : α) :
    ∀ (l : List α) (j : Nat), j < l.length → (l.getD j d :: l.eraseIdx j).Perm l := by
  intro l
  induction l with
  | nil => intro j hj; simp at hj
  | cons a t ih =>
      intro j hj
      cases j with
      | zero => simp
      | succ j =>
          have hj' : j < t.length := by simpa using hj
          have step : (t.getD j d :: a :: t.eraseIdx j).Perm (a :: (t.getD j d :: t.eraseIdx j)) :=
            List.Perm.swap a (t.getD j d) (t.eraseIdx j)
          have tail : (t.getD j d :: t.eraseIdx j).Perm t := ih j hj'
          simpa using step.trans (tail.cons a)

theorem shuffleAux_perm :
    ∀ (n : Nat) (l : List α) (g : RandState), n = l.length → ((shuffleAux n l g).1).Perm l := by
  intro n
  induction n with
  | zero =>
      intro l g h
      cases l with
      | nil => simp [shuffleAux]
      | cons x xs => simp at h
  | succ n ih =>
      intro l g h
      cases l with
      | nil => simp at h
      | cons x xs =>
          have hn : n = xs.length := by simpa using h
          have hj : (randBelow g (xs.length + 1)).1 < (x :: xs).length := by
            simp only [randBelow, List.length_cons]
            exact Nat.mod_lt _ (Nat.succ_pos _)
          have hlen : n = ((x :: xs).eraseIdx (randBelow g (xs.length + 1)).1).length := by
            rw [List.length_eraseIdx_of_lt hj]
            simpa using hn
          have tail := ih ((x :: xs).eraseIdx (randBelow g (xs.length + 1)).1)
            (randBelow g (xs.length + 1)).2 hlen
          have head := getD_cons_eraseIdx_perm x (x :: xs) (randBelow g (xs.length + 1)).1 hj
          simpa [shuffleAux] using (tail.cons ((x :: xs).getD (randBelow g (xs.length + 1)).1 x)).trans head

theorem pyShuffle_perm (l : List α) (g : RandState) : ((pyShuffle l g).1).Perm l :=
  shuffleAux_perm l.length l g rfl

theorem hasCol_iff (df : DF) (c : String) : df.hasCol c = true ↔ c ∈ df.cols := by
  simp [DF.hasCol]

theorem addColConst_WF {df : DF} (h : df.WF) (c : String) (x : Cell) :
    (df.addColConst c x).WF := by
  intro r hr
  simp only [DF.addColConst, List.mem_map] at hr
  obtain ⟨r0, hr0, rfl⟩ := hr
  simp [DF.addColConst, h r0 hr0]

theorem addColConst_rows_length (df : DF) (c : String) (x : Cell) :
    (df.addColConst c x).rows.length = df.rows.length := by
  simp [DF.addColConst]

theorem addColConst_hasCol (df : DF) (c c2 : String) (x : Cell) :
    (df.addColConst c x).hasCol c2 = (df.hasCol c2 || c2 == c) := by
  simp only [DF.hasCol, DF.addColConst]
  by_cases h1 : c2 ∈ df.cols <;> by_cases h2 : c2 = c <;> simp [h1, h2]

theorem getD_rows_map (rows : List (List Cell)) (f : List Cell → List Cell)
    (h0 : f [] = []) (i : Nat) :
    (rows.map f).getD i [] = f (rows.getD i []) := by
  rcases Nat.lt_or_ge i rows.length with h | h
  · simp [List.getD_eq_getElem?_getD, List.getElem?_map,
      List.getElem?_eq_getElem h]
  · have h1 : rows[i]? = none := List.getElem?_eq_none h
    have h2 : (rows.map f)[i]? = none := List.getElem?_eq_none (by simpa using h)
    simp [List.getD_eq_getElem?_getD, h1, h2, h0]

theorem lookupCell_addColConst_present {df : DF} (hwf : df.WF) {c : String}
    (hc : c ∈ df.cols) (c2 : String) (x : Cell) (r : List Cell) (hr : r ∈ df.rows) :
    lookupCell (df.cols ++ [c2]) (r ++ [x]) c = lookupCell df.cols r c := by
  have hidx : List.indexOf c (df.cols ++ [c2]) = List.indexOf c df.cols :=
    List.indexOf_append_of_mem hc
  have hlt : List.indexOf c df.cols < df.cols.length := List.indexOf_lt_length.2 hc
  have hltr : List.indexOf c df.cols < r.length := by rw [hwf r hr]; exact hlt
  simp [lookupCell, hidx, List.getD_eq_getElem?_getD, List.getElem?_append_left hltr]

theorem lookupCell_addColConst_new {df : DF} (hwf : df.WF) {c : String}
    (hc : c ∉ df.cols) (x : Cell) (r : List Cell) (hr : r ∈ df.rows) :
    lookupCell (df.cols ++ [c]) (r ++ [x]) c = x := by
  have hidx : List.indexOf c (df.cols ++ [c]) = df.cols.length := by
    rw [List.indexOf_append_of_not_mem hc]
    simp
  have hlen : r.length = df.cols.length := hwf r hr
  have : (r ++ [x])[df.cols.length]? = some x := by
    rw [List.getElem?_append_right (by omega)]
    simp [hlen]
  simp [lookupCell, hidx, List.getD_eq_getElem?_getD, this]

theorem addMissing_hasCol :
    ∀ (cs : List String) (df : DF) (c : String),
      (addMissing df cs).hasCol c = (df.hasCol c || cs.contains c) := by
  intro cs
  induction cs with
  | nil => intro df c; simp [addMissing]
  | cons c0 rest ih =>
      intro df c
      simp only [addMissing]
      by_cases h : df.hasCol c0 = true
      · rw [if_pos h, ih]
        by_cases hcc : c = c0
        · subst hcc; simp [h]
        · simp [hcc, Bool.or_assoc]
      · rw [if_neg h, ih, addColConst_hasCol]
        by_cases hcc : c = c0
        · subst hcc; simp
        · have hb : (c == c0) = false := by simpa using hcc
          simp [hb, hcc]

theorem addMissing_WF : ∀ (cs : List String) (df : DF), df.WF → (addMissing df cs).WF := by
  intro cs
  induction cs with
  | nil => intro df h; simpa [addMissing] using h
  | cons c0 rest ih =>
      intro df h
      simp only [addMissing]
      by_cases hc : df.hasCol c0 = true
      · rw [if_pos hc]; exact ih df h
      · rw [if_neg hc]; exact ih _ (addColConst_WF h _ _)

theorem addMissing_rows_length :
    ∀ (cs : List String) (df : DF), (addMissing df cs).rows.length = df.rows.length := by
  intro cs
  induction cs with
  | nil => intro df; simp [addMissing]
  | cons c0 rest ih =>
      intro df
      simp only [addMissing]
      by_cases hc : df.hasCol c0 = true
      · rw [if_pos hc]; exact ih df
      · rw [if_neg hc]; rw [ih]; exact addColConst_rows_length df _ _

theorem addMissing_cols_nodup :
    ∀ (cs : List String) (df : DF), df.cols.Nodup → (addMissing df cs).cols.Nodup := by
  intro cs
  induction cs with
  | nil => intro df h; simpa [addMissing] using h
  | cons c0 rest ih =>
      intro df h
      simp only [addMissing]
      by_cases hc : df.hasCol c0 = true
      · rw [if_pos hc]; exact ih df h
      · rw [if_neg hc]
        refine ih _ ?_
        have hnot : c0 ∉ df.cols := by
          intro hmem
          exact absurd ((hasCol_iff df c0).2 hmem) (by simpa using hc)
        simpa [DF.addColConst] using List.Nodup.append h (by simp) (by simpa using hnot)

theorem getD_rows_map_lt (rows : List (List Cell)) (f : List Cell → List Cell)
    (i : Nat) (hi : i < rows.length) :
    (rows.map f).getD i [] = f (rows.getD i []) := by
  simp [List.getD_eq_getElem?_getD, List.getElem?_map, List.getElem?_eq_getElem hi]

theorem getD_mem_of_lt (rows : List (List Cell)) (i : Nat) (hi : i < rows.length) :
    rows.getD i [] ∈ rows := by
  rw [List.getD_eq_getElem?_getD, List.getElem?_eq_getElem hi]
  exact List.getElem_mem hi

theorem cell_addColConst_present {df : DF} (hwf : df.WF) {c : String}
    (hc : c ∈ df.cols) (c2 : String) (x : Cell) (i : Nat) (hi : i < df.rows.length) :
    (df.addColConst c2 x).cell c i = df.cell c i := by
  show lookupCell (df.cols ++ [c2]) ((df.rows.map (fun r => r ++ [x])).getD i []) c = _
  rw [getD_rows_map_lt _ _ i hi]
  exact lookupCell_addColConst_present hwf hc c2 x _ (getD_mem_of_lt _ i hi)

theorem cell_addColConst_new {df : DF} (hwf : df.WF) {c : String}
    (hc : c ∉ df.cols) (x : Cell) (i : Nat) (hi : i < df.rows.length) :
    (df.addColConst c x).cell c i = x := by
  show lookupCell (df.cols ++ [c]) ((df.rows.map (fun r => r ++ [x])).getD i []) c = _
  rw [getD_rows_map_lt _ _ i hi]
  exact lookupCell_addColConst_new hwf hc x _ (getD_mem_of_lt _ i hi)

theorem cell_addMissing_present :
    ∀ (cs : List String) (df : DF), df.WF → ∀ {c : String}, c ∈ df.cols →
      ∀ i, i < df.rows.length → (addMissing df cs).cell c i = df.cell c i := by
  intro cs
  induction cs with
  | nil => intro df _ c _ i _; rfl
  | cons c0 rest ih =>
      intro df hwf c hc i hi
      simp only [addMissing]
      by_cases h : df.hasCol c0 = true
      · rw [if_pos h]; exact ih df hwf hc i hi
      · rw [if_neg h]
        have h1 := ih (df.addColConst c0 (defaultCell c0)) (addColConst_WF hwf _ _)
          (c := c) (by simp [DF.addColConst, hc]) i
          (by rw [addColConst_rows_length]; exact hi)
        rw [h1, cell_addColConst_present hwf hc c0 (defaultCell c0) i hi]

theorem cell_addMissing_new :
    ∀ (cs : List String) (df : DF), df.WF → ∀ {c : String}, c ∉ df.cols → c ∈ cs →
      ∀ i, i < df.rows.length → (addMissing df cs).cell c i = defaultCell c := by
  intro cs
  induction cs with
  | nil => intro df _ c _ hmem; simp at hmem
  | cons c0 rest ih =>
      intro df hwf c hc hmem i hi
      simp only [addMissing]
      by_cases h : df.hasCol c0 = true
      · rw [if_pos h]
        have hne : c ≠ c0 := by
          intro he; subst he
          exact hc ((hasCol_iff df c).1 h)
        exact ih df hwf hc (by simpa [hne] using hmem) i hi
      · rw [if_neg h]
        by_cases hcc : c = c0
        · subst hcc
          have h1 := cell_addMissing_present rest (df.addColConst c (defaultCell c))
            (addColConst_WF hwf _ _) (c := c) (by simp [DF.addColConst]) i
            (by rw [addColConst_rows_length]; exact hi)
          rw [h1, cell_addColConst_new hwf hc (defaultCell c) i hi]
        · have h1 := ih (df.addColConst c0 (defaultCell c0)) (addColConst_WF hwf _ _)
            (c := c) (by simp [DF.addColConst, hc, hcc]) (by simpa [hcc] using hmem) i
            (by rw [addColConst_rows_length]; exact hi)
          rw [h1]

theorem mapCol_cols (df : DF) (c : String) (f : Cell → Cell) :
    (df.mapCol c f).cols = df.cols := rfl

theorem mapCol_rows_length (df : DF) (c : String) (f : Cell → Cell) :
    (df.mapCol c f).rows.length = df.rows.length := by
  simp [DF.mapCol]

theorem mapCol_WF {df : DF} (hwf : df.WF) (c : String) (f : Cell → Cell) :
    (df.mapCol c f).WF := by
  intro r hr
  simp only [DF.mapCol, List.mem_map] at hr
  obtain ⟨r0, hr0, rfl⟩ := hr
  simp [DF.mapCol, hwf r0 hr0]

theorem cell_mapCol_self {df : DF} (hwf : df.WF) {c : String} (hc : c ∈ df.cols)
    (f : Cell → Cell) (i : Nat) (hi : i < df.rows.length) :
    (df.mapCol c f).cell c i = f (df.cell c i) := by
  have hidx : List.indexOf c df.cols < df.cols.length := List.indexOf_lt_length.2 hc
  show lookupCell df.cols ((df.rows.map _).getD i []) c = _
  rw [getD_rows_map_lt _ _ i hi]
  have hr : df.rows.getD i [] ∈ df.rows := getD_mem_of_lt _ i hi
  have hlen : (df.rows.getD i []).length = df.cols.length := hwf _ hr
  have hidxr : List.indexOf c df.cols < (df.rows.getD i []).length := by omega
  simp only [lookupCell, DF.cell, List.getD_eq_getElem?_getD]
  rw [List.getElem?_set_self (by simpa [List.getD_eq_getElem?_getD] using hidxr)]
  rfl

theorem cell_mapCol_ne {df : DF} (hwf : df.WF) (hnd : df.cols.Nodup) {c c2 : String}
    (hne : c2 ≠ c) (f : Cell → Cell) (i : Nat) (hi : i < df.rows.length) :
    (df.mapCol c f).cell c2 i = df.cell c2 i := by
  show lookupCell df.cols ((df.rows.map _).getD i []) c2 = _
  rw [getD_rows_map_lt _ _ i hi]
  have hr : df.rows.getD i [] ∈ df.rows := getD_mem_of_lt _ i hi
  have hlen : (df.rows.getD i []).length = df.cols.length := hwf _ hr
  by_cases hcm : c ∈ df.cols
  · by_cases hc2m : c2 ∈ df.cols
    · have h1 : List.indexOf c df.cols < df.cols.length := List.indexOf_lt_length.2 hcm
      have h2 : List.indexOf c2 df.cols < df.cols.length := List.indexOf_lt_length.2 hc2m
      have hneidx : List.indexOf c df.cols ≠ List.indexOf c2 df.cols := by
        intro he
        exact hne ((List.indexOf_inj hcm hc2m).1 he).symm
      simp only [lookupCell, DF.cell, List.getD_eq_getElem?_getD]
      rw [List.getElem?_set_ne hneidx]
    · have h2 : List.indexOf c2 df.cols = df.cols.length := List.indexOf_of_not_mem hc2m
      have hout : (df.rows.getD i []).length ≤ List.indexOf c2 df.cols := by omega
      simp only [lookupCell, DF.cell, List.getD_eq_getElem?_getD]
      rw [List.getElem?_eq_none (by simpa [List.getD_eq_getElem?_getD] using hout),
        List.getElem?_eq_none
          (by simpa [List.getD_eq_getElem?_getD] using hout)]
  · have h1 : List.indexOf c df.cols = df.cols.length := List.indexOf_of_not_mem hcm
    simp only [lookupCell, DF.cell]
    rw [List.set_eq_of_length_le (by omega)]

theorem applyOps_cols : ∀ (ops : List (String × (Cell → Cell))) (df : DF),
    (applyOps df ops).cols = df.cols := by
  intro ops
  induction ops with
  | nil => intro df; rfl
  | cons op rest ih => intro df; simp only [applyOps]; rw [ih, mapCol_cols]

theorem applyOps_rows_length : ∀ (ops : List (String × (Cell → Cell))) (df : DF),
    (applyOps df ops).rows.length = df.rows.length := by
  intro ops
  induction ops with
  | nil => intro df; rfl
  | cons op rest ih => intro df; simp only [applyOps]; rw [ih, mapCol_rows_length]

theorem applyOps_WF : ∀ (ops : List (String × (Cell → Cell))) (df : DF),
    df.WF → (applyOps df ops).WF := by
  intro ops
  induction ops with
  | nil => intro df h; exact h
  | cons op rest ih => intro df h; exact ih _ (mapCol_WF h _ _)

theorem cell_applyOps_notmem :
    ∀ (ops : List (String × (Cell → Cell))) (df : DF), df.WF → df.cols.Nodup →
      ∀ {c : String}, c ∉ ops.map Prod.fst →
      ∀ i, i < df.rows.length → (applyOps df ops).cell c i = df.cell c i := by
  intro ops
  induction ops with
  | nil => intro df _ _ c _ i _; rfl
  | cons op rest ih =>
      intro df hwf hnd c hc i hi
      simp only [applyOps]
      have hne : c ≠ op.1 := by
        intro he
        exact hc (by rw [he]; exact List.mem_cons_self _ _)
      have hrest : c ∉ rest.map Prod.fst := fun hm => hc (List.mem_cons_of_mem _ hm)
      rw [ih _ (mapCol_WF hwf _ _) (by simpa using hnd) hrest
        i (by rw [mapCol_rows_length]; exact hi)]
      exact cell_mapCol_ne hwf hnd hne op.2 i hi

theorem cell_applyOps :
    ∀ (ops : List (String × (Cell → Cell))) (df : DF), df.WF → df.cols.Nodup →
      (ops.map Prod.fst).Nodup →
      ∀ {c : String}, c ∈ df.cols →
      ∀ i, i < df.rows.length → (applyOps df ops).cell c i = opFun ops c (df.cell c i) := by
  intro ops
  induction ops with
  | nil => intro df _ _ _ c _ i _; rfl
  | cons op rest ih =>
      intro df hwf hnd hopsnd c hc i hi
      simp only [applyOps]
      have hnd2 : (rest.map Prod.fst).Nodup := by
        simpa using List.Nodup.of_cons (by simpa using hopsnd)
      by_cases hcc : c = op.1
      · have hnotin : op.1 ∉ rest.map Prod.fst := by
          have h2 : (op.1 :: rest.map Prod.fst).Nodup := by simpa using hopsnd
          exact (List.nodup_cons.1 h2).1
        rw [hcc]
        rw [cell_applyOps_notmem rest _ (mapCol_WF hwf _ _) (by simpa using hnd) hnotin
          i (by rw [mapCol_rows_length]; exact hi)]
        rw [cell_mapCol_self hwf (hcc ▸ hc) op.2 i hi]
        have hlk : (op :: rest).lookup op.1 = some op.2 := by
          cases op with
          | mk a b => simp [List.lookup]
        simp [opFun, hlk]
      · have h1 := ih (df.mapCol op.1 op.2) (mapCol_WF hwf _ _) (by simpa using hnd)
          hnd2 (c := c) (by simpa using hc) i
          (by rw [mapCol_rows_length]; exact hi)
        rw [h1, cell_mapCol_ne hwf hnd hcc op.2 i hi]
        have hlk : (op :: rest).lookup c = rest.lookup c := by
          cases op with
          | mk a b =>
              have hb : (c == a) = false := by
                simpa using fun h : c = a => hcc (by simpa using h)
              simp [List.lookup, hb]
        simp [opFun, hlk]

theorem select_cols (df : DF) (cs : List String) : (df.select cs).cols = cs := rfl

theorem select_rows_length (df : DF) (cs : List String) :
    (df.select cs).rows.length = df.rows.length := by
  simp [DF.select]

theorem cell_select (df : DF) {cs : List String} {c : String} (hc : c ∈ cs)
    (i : Nat) (hi : i < df.rows.length) :
    (df.select cs).cell c i = df.cell c i := by
  have hidx : List.indexOf c cs < cs.length := List.indexOf_lt_length.2 hc
  show lookupCell cs ((df.rows.map _).getD i []) c = _
  rw [getD_rows_map_lt _ _ i hi]
  show (cs.map (fun c2 => lookupCell df.cols (df.rows.getD i []) c2)).getD
      (List.indexOf c cs) Cell.nan = _
  rw [List.getD_eq_getElem?_getD, List.getElem?_map, List.getElem?_eq_getElem hidx]
  simp only [Option.map_some', Option.getD_some]
  rw [List.getElem_indexOf hidx]
  rfl

theorem normalizeOps_names_nodup : (normalizeOps.map Prod.fst).Nodup := by
  decide

theorem ensure_cols (df : DF) : (ensure_reposvul_schema df).cols = requiredCols := rfl

theorem ensure_rows_length (df : DF) :
    (ensure_reposvul_schema df).rows.length = df.rows.length := by
  unfold ensure_reposvul_schema
  rw [select_rows_length, applyOps_rows_length, addMissing_rows_length]

set_option maxHeartbeats 1000000 in
/-- Master cell lemma for `ensure_reposvul_schema`: the output cell in a
canonical column is the column's normalization applied to the input cell,
or to the documented default when the column is missing. -/
theorem ensure_cell (df : DF) (hwf : df.WF) (hnd : df.cols.Nodup) {c : String}
    (hc : c ∈ requiredCols) (i : Nat) (hi : i < df.rows.length) :
    (ensure_reposvul_schema df).cell c i =
      normOp c (if df.hasCol c = true then df.cell c i else defaultCell c) := by
  unfold ensure_reposvul_schema
  have hlen2 : i < (applyOps (addMissing df requiredCols) normalizeOps).rows.length := by
    rw [applyOps_rows_length, addMissing_rows_length]; exact hi
  rw [cell_select _ hc i hlen2]
  have hwf1 : (addMissing df requiredCols).WF := addMissing_WF _ df hwf
  have hnd1 : (addMissing df requiredCols).cols.Nodup := addMissing_cols_nodup _ df hnd
  have hmem1 : c ∈ (addMissing df requiredCols).cols := by
    rw [← hasCol_iff, addMissing_hasCol]
    simp [hc]
  rw [cell_applyOps normalizeOps _ hwf1 hnd1 normalizeOps_names_nodup hmem1 i
    (by rw [addMissing_rows_length]; exact hi)]
  refine congrArg (normOp c) ?_
  by_cases hpres : df.hasCol c = true
  · rw [if_pos hpres]
    exact cell_addMissing_present requiredCols df hwf ((hasCol_iff df c).1 hpres) i hi
  · rw [if_neg hpres]
    exact cell_addMissing_new requiredCols df hwf
      (fun hmem => hpres ((hasCol_iff df c).2 hmem)) hc i hi

theorem ensure_def (df : DF) : ensure_reposvul_schema df =
    (applyOps (addMissing df requiredCols) normalizeOps).select requiredCols := rfl

theorem select_rows (df : DF) (cs : List String) :
    (df.select cs).rows = df.rows.map (fun r => cs.map (fun c => lookupCell df.cols r c)) := rfl

theorem select_rows_getD (df : DF) (cs : List String) (i : Nat) (hi : i < df.rows.length) :
    (df.select cs).rows.getD i [] =
      cs.map (fun c => lookupCell df.cols (df.rows.getD i []) c) := by
  rw [select_rows]
  exact getD_rows_map_lt _ _ i hi

theorem ensure_row_shape (df : DF) (i : Nat) (hi : i < df.rows.length) :
    (ensure_reposvul_schema df).rows.getD i [] =
      requiredCols.map (fun c => (ensure_reposvul_schema df).cell c i) := by
  have hlen2 : i < (applyOps (addMissing df requiredCols) normalizeOps).rows.length := by
    rw [applyOps_rows_length, addMissing_rows_length]; exact hi
  rw [ensure_def, select_rows_getD _ _ i hlen2]
  refine List.map_congr_left ?_
  intro c hc
  exact (cell_select _ hc i hlen2).symm

theorem select_WF (df : DF) (cs : List String) : (df.select cs).WF := by
  intro r hr
  simp only [DF.select, List.mem_map] at hr
  obtain ⟨r0, _, rfl⟩ := hr
  simp [DF.select]

theorem ensure_WF (df : DF) : (ensure_reposvul_schema df).WF := by
  rw [ensure_def]
  exact select_WF _ _

theorem requiredCols_nodup : requiredCols.Nodup := by decide

theorem pyTrunc_int (n : Int) : pyTrunc (n : ℚ) = n := by
  unfold pyTrunc
  simp [Int.tdiv_one]

theorem fillna_astypeStr (d : Cell) (x : Cell) : fillnaCell d (astypeStr x) = astypeStr x := by
  cases x <;> rfl

theorem astypeStr_astypeStr (x : Cell) : astypeStr (astypeStr x) = astypeStr x := by
  cases x <;> rfl

theorem normOp_idem : ∀ c ∈ requiredCols, ∀ v, normOp c (normOp c v) = normOp c v := by
  have hstr : ∀ (d v : Cell),
      fillnaCell d (astypeStr (fillnaCell d (astypeStr v))) = fillnaCell d (astypeStr v) := by
    intro d v
    rw [fillna_astypeStr, fillna_astypeStr, astypeStr_astypeStr]
  have htgt : ∀ v : Cell,
      Cell.int (pyTrunc ((toNumericCell (Cell.int (pyTrunc ((toNumericCell v).getD 0)))).getD 0))
        = Cell.int (pyTrunc ((toNumericCell v).getD 0)) := by
    intro v
    simp [toNumericCell, pyTrunc_int]
  have hpf : ∀ v : Cell,
      Cell.str (cleanChars (cellToStr (Cell.str (cleanChars (cellToStr v)))))
        = Cell.str (cleanChars (cellToStr v)) := by
    intro v
    simp [cellToStr, cleanChars_idem]
  intro c hc v
  fin_cases hc <;>
    simp only [normOp, opFun, normalizeOps, List.lookup] <;>
    first
      | exact hpf v
      | exact htgt v
      | exact hstr _ v

theorem dfExt {a b : DF} (h1 : a.cols = b.cols) (h2 : a.rows = b.rows) : a = b := by
  cases a; cases b; simp_all

theorem getD_eq_getElem_of_lt (l : List (List Cell)) (i : Nat) (h : i < l.length) :
    l.getD i [] = l[i] := by
  simp [List.getD_eq_getElem?_getD, List.getElem?_eq_getElem h]

/-- Idempotence of the schema normalizer on well-formed frames. -/
theorem ensure_idem (df : DF) (hwf : df.WF) (hnd : df.cols.Nodup) :
    ensure_reposvul_schema (ensure_reposvul_schema df) = ensure_reposvul_schema df := by
  have hAwf : (ensure_reposvul_schema df).WF := ensure_WF df
  have hAnd : (ensure_reposvul_schema df).cols.Nodup := by
    rw [ensure_cols]; exact requiredCols_nodup
  have hAlen : (ensure_reposvul_schema df).rows.length = df.rows.length :=
    ensure_rows_length df
  refine dfExt (by rw [ensure_cols, ensure_cols]) ?_
  have hBlen : (ensure_reposvul_schema (ensure_reposvul_schema df)).rows.length
      = (ensure_reposvul_schema df).rows.length := ensure_rows_length _
  refine List.ext_getElem hBlen ?_
  intro i hi1 hi2
  have hiA : i < (ensure_reposvul_schema df).rows.length := hi2
  have hidf : i < df.rows.length := by omega
  have hcell : ∀ c ∈ requiredCols,
      (ensure_reposvul_schema (ensure_reposvul_schema df)).cell c i
        = (ensure_reposvul_schema df).cell c i := by
    intro c hc
    have hApres : (ensure_reposvul_schema df).hasCol c = true := by
      rw [hasCol_iff, ensure_cols]; exact hc
    rw [ensure_cell _ hAwf hAnd hc i hiA, if_pos hApres]
    by_cases hpres : df.hasCol c = true
    · rw [ensure_cell df hwf hnd hc i hidf, if_pos hpres]
      exact normOp_idem c hc _
    · rw [ensure_cell df hwf hnd hc i hidf, if_neg hpres]
      exact normOp_idem c hc _
  have e1 := ensure_row_shape (ensure_reposvul_schema df) i hiA
  have e2 := ensure_row_shape df i hidf
  rw [getD_eq_getElem_of_lt _ i hi1] at e1
  rw [getD_eq_getElem_of_lt _ i hi2] at e2
  rw [e1, e2]
  exact List.map_congr_left hcell

theorem addMissing_rows_map :
    ∀ (cs : List String) (df : DF), ∃ g, (addMissing df cs).rows = df.rows.map g := by
  intro cs
  induction cs with
  | nil => intro df; exact ⟨id, by simp [addMissing]⟩
  | cons c0 rest ih =>
      intro df
      simp only [addMissing]
      by_cases h : df.hasCol c0 = true
      · rw [if_pos h]; exact ih df
      · rw [if_neg h]
        obtain ⟨g, hg⟩ := ih (df.addColConst c0 (defaultCell c0))
        refine ⟨fun r => g (r ++ [defaultCell c0]), ?_⟩
        rw [hg]
        simp [DF.addColConst]

theorem applyOps_rows_map :
    ∀ (ops : List (String × (Cell → Cell))) (df : DF),
      ∃ g, (applyOps df ops).rows = df.rows.map g := by
  intro ops
  induction ops with
  | nil => intro df; exact ⟨id, by simp [applyOps]⟩
  | cons op rest ih =>
      intro df
      simp only [applyOps]
      obtain ⟨g, hg⟩ := ih (df.mapCol op.1 op.2)
      refine ⟨fun r => g (r.set (List.indexOf op.1 df.cols)
        (op.2 (r.getD (List.indexOf op.1 df.cols) Cell.nan))), ?_⟩
      rw [hg]
      simp [DF.mapCol]

/-- The schema normalizer acts rowwise: each output row is a function of
the corresponding input row alone, so rows are neither reordered nor
dropped. -/
theorem ensure_rows_map (df : DF) :
    ∃ g, (ensure_reposvul_schema df).rows = df.rows.map g := by
  obtain ⟨g1, hg1⟩ := addMissing_rows_map requiredCols df
  obtain ⟨g2, hg2⟩ := applyOps_rows_map normalizeOps (addMissing df requiredCols)
  refine ⟨fun r => requiredCols.map (fun c =>
    lookupCell (applyOps (addMissing df requiredCols) normalizeOps).cols (g2 (g1 r)) c), ?_⟩
  rw [ensure_def, select_rows, hg2, hg1, List.map_map, List.map_map]
  rfl

theorem dedupRows_sublist (key : List Cell → List Char) :
    ∀ (rows : List (List Cell)) (seen : List (List Char)),
      (dedupRows key rows seen).Sublist rows := by
  intro rows
  induction rows with
  | nil => intro seen; simp [dedupRows]
  | cons r rs ih =>
      intro seen
      simp only [dedupRows]
      by_cases h : seen.contains (key r)
      · rw [if_pos h]
        exact (ih seen).cons r
      · rw [if_neg h]
        exact (ih (key r :: seen)).cons₂ r

theorem dedupRows_pairwise (key : List Cell → List Char) :
    ∀ (rows : List (List Cell)) (seen : List (List Char)),
      (dedupRows key rows seen).Pairwise (fun a b => key a ≠ key b) ∧
      ∀ r ∈ dedupRows key rows seen, seen.contains (key r) = false := by
  intro rows
  induction rows with
  | nil => intro seen; simp [dedupRows]
  | cons r rs ih =>
      intro seen
      simp only [dedupRows]
      by_cases h : seen.contains (key r)
      · rw [if_pos h]
        exact ih seen
      · rw [if_neg h]
        obtain ⟨hp, hs⟩ := ih (key r :: seen)
        refine ⟨List.Pairwise.cons ?_ hp, ?_⟩
        · intro b hb
          have := hs b hb
          simp only [List.contains_cons] at this
          intro he
          rw [he] at this
          simp at this
        · intro r2 hr2
          rcases List.mem_cons.1 hr2 with h2 | h2
          · subst h2
            simpa using h
          · have := hs r2 h2
            simp only [List.contains_cons] at this
            rcases Bool.or_eq_false_iff.1 this with ⟨_, h4⟩
            exact h4

theorem dedupRows_eq_keepFirst_aux (key : List Cell → List Char) :
    ∀ (rows : List (List Cell)) (acc : List (List Cell)) (seen : List (List Char)),
      (∀ k, seen.contains k = acc.any (fun r2 => key r2 == k)) →
      rows.foldl (fun acc r => if acc.any (fun r2 => key r2 == key r) then acc else acc ++ [r]) acc
        = acc ++ dedupRows key rows seen := by
  intro rows
  induction rows with
  | nil => intro acc seen _; simp [dedupRows]
  | cons r rs ih =>
      intro acc seen hinv
      simp only [List.foldl_cons, dedupRows]
      by_cases h : seen.contains (key r) = true
      · rw [if_pos h, if_pos (by rw [← hinv]; exact h)]
        exact ih acc seen hinv
      · have h2 : acc.any (fun r2 => key r2 == key r) = false := by
          rw [← hinv]; simpa using h
        have hfold : ¬ ((acc.any fun r2 => key r2 == key r) = true) := by simp [h2]
        rw [if_neg h, if_neg hfold]
        rw [ih (acc ++ [r]) (key r :: seen) ?_]
        · simp
        · intro k
          by_cases hk : k = key r
          · subst hk
            simp [List.contains_cons]
          · have e3 : (key r == k) = false := by
              simpa using fun hh : key r = k => hk hh.symm
            simp [hk, e3, ← hinv k, List.contains_cons]

/-- The dedup of `deduplicate_by_code` is exactly the spec's
first-occurrence filter. -/
theorem dedupRows_eq_keepFirst (key : List Cell → List Char) (rows : List (List Cell)) :
    dedupRows key rows [] = keepFirst key rows := by
  have := dedupRows_eq_keepFirst_aux key rows [] [] (by intro k; simp)
  simpa [keepFirst] using this.symm

theorem clean_code_str (s : List Char) : clean_code (.str s) = cleanChars s := by
  by_cases h : s = []
  · subst h; rfl
  · simp [clean_code, truthy, h, pyStr]

theorem clean_code_of_falsy {v : JVal} (h : truthy v = false) : clean_code v = [] := by
  simp [clean_code, h]

theorem clean_code_pyOr_end (a : JVal) :
    clean_code (pyOr a (.str [])) = clean_code a := by
  by_cases h : truthy a = true
  · simp [pyOr, h]
  · rw [pyOr, if_neg h]
    rw [show clean_code a = [] from clean_code_of_falsy (by simpa using h)]
    rfl

theorem clean_code_pyOr_chain2 (a b : JVal) :
    clean_code (pyOr a (pyOr b (.str []))) = clean_code (firstTruthy [a, b]) := by
  by_cases ha : truthy a = true
  · simp [pyOr, firstTruthy, ha]
  · rw [pyOr, if_neg ha]
    simp only [firstTruthy, if_neg ha]
    rw [clean_code_pyOr_end]
    by_cases hb : truthy b = true
    · simp [firstTruthy, hb]
    · rw [show clean_code b = [] from clean_code_of_falsy (by simpa using hb)]
      simp only [firstTruthy, if_neg hb]
      rfl

theorem clean_code_pyOr_chain3 (a b c : JVal) :
    clean_code (pyOr a (pyOr b (pyOr c (.str [])))) =
      clean_code (firstTruthy [a, b, c]) := by
  by_cases ha : truthy a = true
  · simp [pyOr, firstTruthy, ha]
  · rw [pyOr, if_neg ha]
    simp only [firstTruthy, if_neg ha]
    exact clean_code_pyOr_chain2 b c

theorem get_fb_eq_spec (x : JVal) : get_fb_code_and_label x = specBeforeSlot x := by
  cases x with
  | obj fs =>
      simp only [get_fb_code_and_label, specBeforeSlot]
      rw [clean_code_pyOr_chain3]
  | str s =>
      simp only [get_fb_code_and_label, specBeforeSlot]
      rw [clean_code_str]
  | null => rfl
  | bool b => rfl
  | num q => rfl
  | arr xs => rfl

theorem get_fa_eq_spec (x : JVal) : get_fa_code x = specAfterSlot x := by
  cases x with
  | obj fs =>
      simp only [get_fa_code, specAfterSlot]
      rw [clean_code_pyOr_chain2]
  | str s =>
      simp only [get_fa_code, specAfterSlot]
      rw [clean_code_str]
  | null => rfl
  | bool b => rfl
  | num q => rfl
  | arr xs => rfl

/-- The implementation's extraction equals the spec's ordered-fallback
description. -/
theorem extract_eq_spec (d : JObj) : extract_code_and_label d = extract_spec d := by
  simp only [extract_code_and_label, extract_spec, get_fb_eq_spec, get_fa_eq_spec,
    clean_code_pyOr_chain2, clean_code_pyOr_end]
  cases hfb : as_list (getField d "function_before") with
  | nil =>
      cases hfa : as_list (getField d "function_after") with
      | nil =>
          by_cases hp : clean_code (getField d "patch") = [] <;>
            by_cases hb : clean_code (firstTruthy [getField d "code_before", getField d "code"]) = [] <;>
              simp [hp, hb]
      | cons y ys =>
          by_cases ha : specAfterSlot y = [] <;>
            by_cases hp : clean_code (getField d "patch") = [] <;>
              by_cases hb : clean_code (firstTruthy [getField d "code_before", getField d "code"]) = [] <;>
                simp [ha, hp, hb]
  | cons x xs =>
      rcases hsb : specBeforeSlot x with ⟨bc, lab⟩
      cases hfa : as_list (getField d "function_after") with
      | nil =>
          cases lab with
          | none =>
              by_cases hbc : bc = [] <;>
                by_cases hp : clean_code (getField d "patch") = [] <;>
                  by_cases hb : clean_code (firstTruthy [getField d "code_before", getField d "code"]) = [] <;>
                    simp [hsb, hbc, hp, hb]
          | some l =>
              by_cases hbc : bc = [] <;>
                by_cases hp : clean_code (getField d "patch") = [] <;>
                  by_cases hb : clean_code (firstTruthy [getField d "code_before", getField d "code"]) = [] <;>
                    simp [hsb, hbc, hp, hb]
      | cons y ys =>
          cases lab with
          | none =>
              by_cases hbc : bc = [] <;>
                by_cases ha : specAfterSlot y = [] <;>
                  by_cases hp : clean_code (getField d "patch") = [] <;>
                    by_cases hb : clean_code (firstTruthy [getField d "code_before", getField d "code"]) = [] <;>
                      simp [hsb, hbc, ha, hp, hb]
          | some l =>
              by_cases hbc : bc = [] <;>
                by_cases ha : specAfterSlot y = [] <;>
                  by_cases hp : clean_code (getField d "patch") = [] <;>
                    by_cases hb : clean_code (firstTruthy [getField d "code_before", getField d "code"]) = [] <;>
                      simp [hsb, hbc, ha, hp, hb]

/-- Once before-code is non-empty, after-code is never empty (the final
fallback copies before-code). -/
theorem extract_after_of_before (d : JObj) (h : (extract_code_and_label d).1 ≠ []) :
    (extract_code_and_label d).2.2 ≠ [] := by
  rw [extract_eq_spec] at h ⊢
  simp only [extract_spec] at h ⊢
  by_cases ha : (match as_list (getField d "function_after") with
      | [] => ([] : List Char)
      | x :: _ => specAfterSlot x) ≠ []
  · rw [if_pos ha]; exact ha
  · rw [if_neg ha]
    by_cases hp : clean_code (getField d "patch") ≠ []
    · rw [if_pos hp]; exact hp
    · rw [if_neg hp]; exact h

theorem pyShuffle_length (l : List α) (g : RandState) :
    (pyShuffle l g).1.length = l.length :=
  (pyShuffle_perm l g).length_eq

theorem pyTrunc_nonneg {q : ℚ} (h : 0 ≤ q) : 0 ≤ pyTrunc q :=
  Int.tdiv_nonneg (Rat.num_nonneg.2 h) (Int.ofNat_nonneg q.den)

theorem pySliceIdx_mono {n : Nat} {i j : Int} (hi : 0 ≤ i) (hij : i ≤ j) :
    pySliceIdx n i ≤ pySliceIdx n j := by
  unfold pySliceIdx
  rw [if_neg (not_lt.2 hi), if_neg (not_lt.2 (le_trans hi hij))]
  exact min_le_min (Int.toNat_le_toNat hij) le_rfl

theorem bucket_reassemble (b : List α) {x y : Nat} (h : x ≤ y) :
    b.take x ++ ((b.take y).drop x ++ b.drop y) = b := by
  have h1 : b.take x ++ (b.take y).drop x = b.take y := by
    have h2 : (b.take y).take x = b.take x := by
      rw [List.take_take, Nat.min_eq_left h]
    rw [← h2, List.take_append_drop]
  rw [← List.append_assoc, h1, List.take_append_drop]

theorem stratified_split_lengths (g0 : RandState) (rows : List OutRow) (seed : Int)
    (ratios : ℚ × ℚ × ℚ) :
    (stratified_split g0 rows seed ratios).1.1.length =
      (bucketSliceLens (rows.filter (fun r => r.target == 1)).length ratios).1 +
      (bucketSliceLens (rows.filter (fun r => r.target == 0)).length ratios).1 ∧
    (stratified_split g0 rows seed ratios).1.2.1.length =
      (bucketSliceLens (rows.filter (fun r => r.target == 1)).length ratios).2.1 +
      (bucketSliceLens (rows.filter (fun r => r.target == 0)).length ratios).2.1 ∧
    (stratified_split g0 rows seed ratios).1.2.2.length =
      (bucketSliceLens (rows.filter (fun r => r.target == 1)).length ratios).2.2 +
      (bucketSliceLens (rows.filter (fun r => r.target == 0)).length ratios).2.2 := by
  simp only [stratified_split, bucketSliceLens]
  refine ⟨?_, ?_, ?_⟩ <;>
    simp [pyShuffle_length, List.length_append, List.length_take, List.length_drop]

theorem stratified_split_subsets (g0 : RandState) (rows : List OutRow) (seed : Int)
    (ratios : ℚ × ℚ × ℚ) :
    (∀ r ∈ (stratified_split g0 rows seed ratios).1.1, r ∈ rows) ∧
    (∀ r ∈ (stratified_split g0 rows seed ratios).1.2.1, r ∈ rows) ∧
    (∀ r ∈ (stratified_split g0 rows seed ratios).1.2.2, r ∈ rows) := by
  simp only [stratified_split]
  refine ⟨fun r hr => ?_, fun r hr => ?_, fun r hr => ?_⟩
  · rcases List.mem_append.1 ((pyShuffle_perm _ _).mem_iff.1 hr) with h | h
    · exact List.mem_of_mem_filter
        ((pyShuffle_perm _ _).mem_iff.1 (List.take_subset _ _ h))
    · exact List.mem_of_mem_filter
        ((pyShuffle_perm _ _).mem_iff.1 (List.take_subset _ _ h))
  · rcases List.mem_append.1 ((pyShuffle_perm _ _).mem_iff.1 hr) with h | h
    · exact List.mem_of_mem_filter ((pyShuffle_perm _ _).mem_iff.1
        (List.take_subset _ _ (List.drop_subset _ _ h)))
    · exact List.mem_of_mem_filter ((pyShuffle_perm _ _).mem_iff.1
        (List.take_subset _ _ (List.drop_subset _ _ h)))
  · rcases List.mem_append.1 ((pyShuffle_perm _ _).mem_iff.1 hr) with h | h
    · exact List.mem_of_mem_filter
        ((pyShuffle_perm _ _).mem_iff.1 (List.drop_subset _ _ h))
    · exact List.mem_of_mem_filter
        ((pyShuffle_perm _ _).mem_iff.1 (List.drop_subset _ _ h))

theorem interleave_perm {α : Type} [DecidableEq α] (a b c d e f : List α) :
    ((a ++ d) ++ ((b ++ e) ++ (c ++ f))).Perm ((a ++ (b ++ c)) ++ (d ++ (e ++ f))) := by
  refine List.perm_iff_count.2 fun x => ?_
  simp [List.count_append]
  ring

theorem pos_neg_perm (rows : List OutRow)
    (hlab : ∀ r ∈ rows, r.target = 0 ∨ r.target = 1) :
    (rows.filter (fun r => r.target == 1) ++ rows.filter (fun r => r.target == 0)).Perm rows := by
  have h1 : rows.filter (fun r => r.target == 0)
      = rows.filter (fun r => !(r.target == 1)) := by
    apply List.filter_congr
    intro r hr
    rcases hlab r hr with h | h <;> simp [h]
  rw [h1]
  exact List.filter_append_perm _ rows

theorem to_int_label_mem {v : JVal} {n : Int} (h : to_int_label v = some n) :
    n = 0 ∨ n = 1 := by
  cases v with
  | null => simp [to_int_label] at h
  | bool b =>
      simp only [to_int_label] at h
      cases b <;> simp_all
  | num q =>
      simp only [to_int_label] at h
      split_ifs at h with h1
      cases h
      exact h1
  | str s =>
      simp only [to_int_label] at h
      split_ifs at h <;> simp_all
  | arr xs => simp [to_int_label] at h
  | obj fs => simp [to_int_label] at h

theorem get_fb_label_mem {x : JVal} {n : Int}
    (h : (get_fb_code_and_label x).2 = some n) : n = 0 ∨ n = 1 := by
  cases x with
  | obj fs => exact to_int_label_mem h
  | str s => simp [get_fb_code_and_label] at h
  | null => simp [get_fb_code_and_label] at h
  | bool b => simp [get_fb_code_and_label] at h
  | num q => simp [get_fb_code_and_label] at h
  | arr xs => simp [get_fb_code_and_label] at h

theorem extract_label_mem {d : JObj} {n : Int}
    (h : (extract_code_and_label d).2.1 = some n) : n = 0 ∨ n = 1 := by
  simp only [extract_code_and_label] at h
  cases hfb : as_list (getField d "function_before") with
  | nil =>
      rw [hfb] at h
      simp only [] at h
      exact to_int_label_mem h
  | cons x xs =>
      rw [hfb] at h
      simp only [] at h
      cases hl : (get_fb_code_and_label x).2 with
      | none =>
          rw [hl] at h
          exact to_int_label_mem h
      | some l =>
          rw [hl] at h
          simp at h
          subst h
          exact get_fb_label_mem hl

theorem processDetail_target (obj : JObj) (st : Stats) (d : JVal) :
    ∀ r ∈ (processDetail obj st d).1, r.target = 0 ∨ r.target = 1 := by
  cases d with
  | obj fs =>
      simp only [processDetail]
      by_cases hc : (extract_code_and_label fs).1 = []
      · simp [hc]
      · rw [if_neg hc]
        cases hl : (extract_code_and_label fs).2.1 with
        | none => simp
        | some l =>
            intro r hr
            simp at hr
            rw [hr]
            exact extract_label_mem hl
  | null => simp [processDetail]
  | bool b => simp [processDetail]
  | num q => simp [processDetail]
  | str s => simp [processDetail]
  | arr xs => simp [processDetail]

theorem processDetails_target (obj : JObj) :
    ∀ (ds : List JVal) (st : Stats), ∀ r ∈ (processDetails obj st ds).1,
      r.target = 0 ∨ r.target = 1 := by
  intro ds
  induction ds with
  | nil => intro st r hr; simp [processDetails] at hr
  | cons d rest ih =>
      intro st r hr
      simp only [processDetails, List.mem_append] at hr
      rcases hr with hr | hr
      · exact processDetail_target obj st d r hr
      · exact ih _ r hr

theorem processObj_target (st : Stats) (obj : JObj) :
    ∀ r ∈ (processObj st obj).1, r.target = 0 ∨ r.target = 1 := by
  intro r hr
  unfold processObj at hr
  rcases hv : getField obj "details" with _ | b | q | s | xs | fs <;> rw [hv] at hr
  · simp at hr
  · exact processDetails_target obj _ _ r hr
  · exact processDetails_target obj _ _ r hr
  · exact processDetails_target obj _ _ r hr
  · exact processDetails_target obj _ _ r hr
  · exact processDetails_target obj _ _ r hr

theorem iterRowsAux_target :
    ∀ (objs : List JObj) (st : Stats), ∀ r ∈ (iterRowsAux st objs).1,
      r.target = 0 ∨ r.target = 1 := by
  intro objs
  induction objs with
  | nil => intro st r hr; simp [iterRowsAux] at hr
  | cons obj rest ih =>
      intro st r hr
      simp only [iterRowsAux, List.mem_append] at hr
      rcases hr with hr | hr
      · exact processObj_target st obj r hr
      · exact ih _ r hr

theorem processDetail_skip_label (obj : JObj) (st : Stats) (fs : JObj)
    (hcode : (extract_code_and_label fs).1 ≠ [])
    (hlab : (extract_code_and_label fs).2.1 = none) :
    processDetail obj st (.obj fs) =
      ([], { st with skip_no_label := st.skip_no_label + 1 }) := by
  simp [processDetail, hcode, hlab]

theorem read_jsonl_error :
    ∀ (l1 l2 : List (Option JObj)), read_jsonl (l1 ++ none :: l2) = .error () := by
  intro l1 l2
  induction l1 with
  | nil => rfl
  | cons x rest ih =>
      cases x with
      | none => rfl
      | some j => simp [read_jsonl, ih, Except.map]

theorem primevulAux_total_shift :
    ∀ (ls : List (Option JObj)) (t k i : Nat),
      primevulAux ls (t + 1) k i =
        ((primevulAux ls t k i).1, (primevulAux ls t k i).2.1 + 1,
         (primevulAux ls t k i).2.2) := by
  intro ls
  induction ls with
  | nil => intro t k i; rfl
  | cons x rest ih =>
      intro t k i
      cases x with
      | none =>
          show primevulAux rest (t + 2) k i = _
          rw [ih (t + 1) k i]
          rfl
      | some fs =>
          by_cases h : is_c_function fs = true
          · simp only [primevulAux, if_pos h]
            rw [ih (t + 1) (k + 1) (i + 1)]
          · simp only [primevulAux, if_neg h]
            rw [ih (t + 1) k i]

theorem primevulAux_malformed :
    ∀ (l1 l2 : List (Option JObj)) (t k i : Nat),
      primevulAux (l1 ++ none :: l2) t k i =
        ((primevulAux (l1 ++ l2) t k i).1, (primevulAux (l1 ++ l2) t k i).2.1 + 1,
         (primevulAux (l1 ++ l2) t k i).2.2) := by
  intro l1
  induction l1 with
  | nil =>
      intro l2 t k i
      show primevulAux l2 (t + 1) k i = _
      exact primevulAux_total_shift l2 t k i
  | cons x rest ih =>
      intro l2 t k i
      cases x with
      | none =>
          show primevulAux (rest ++ none :: l2) (t + 1) k i = _
          rw [ih l2 (t + 1) k i]
          rfl
      | some fs =>
          by_cases h : is_c_function fs = true
          · simp only [List.cons_append, primevulAux, if_pos h, List.append_eq]
            rw [ih l2 (t + 1) (k + 1) (i + 1)]
          · simp only [List.cons_append, primevulAux, if_neg h, List.append_eq]
            exact ih l2 (t + 1) k i

theorem addMissing_of_present :
    ∀ (cs : List String) (df : DF), (∀ c ∈ cs, df.hasCol c = true) → addMissing df cs = df := by
  intro cs
  induction cs with
  | nil => intro df _; rfl
  | cons c0 rest ih =>
      intro df h
      simp only [addMissing, if_pos (h c0 (by simp))]
      exact ih df (fun c hc => h c (by simp [hc]))

theorem applyOps_rows_eq :
    ∀ (ops : List (String × (Cell → Cell))) (df : DF),
      (applyOps df ops).rows = df.rows.map (opsRowFun df.cols ops) := by
  intro ops
  induction ops with
  | nil => intro df; simp [applyOps, opsRowFun]
  | cons op rest ih =>
      intro df
      simp only [applyOps]
      rw [ih (df.mapCol op.1 op.2)]
      show (df.rows.map _).map _ = _
      rw [List.map_map]
      rfl

theorem ensure_rows_eq_of_cols (df : DF) (h : df.cols = requiredCols) :
    (ensure_reposvul_schema df).rows = df.rows.map ensureRowFun := by
  rw [ensure_def]
  have haddm : addMissing df requiredCols = df := by
    refine addMissing_of_present requiredCols df ?_
    intro c hc
    rw [hasCol_iff, h]
    exact hc
  rw [haddm, select_rows, applyOps_rows_eq, applyOps_cols, h, List.map_map]
  rfl

theorem ensure_cols_of_fixed {df : DF} (h : ensure_reposvul_schema df = df) :
    df.cols = requiredCols := by
  rw [← h, ensure_cols]

theorem ensure_fixed_concat {a b : DF}
    (ha : ensure_reposvul_schema a = a) (hb : ensure_reposvul_schema b = b) :
    ensure_reposvul_schema (concatDF a b) = concatDF a b := by
  have hac : a.cols = requiredCols := ensure_cols_of_fixed ha
  have hbc : b.cols = requiredCols := ensure_cols_of_fixed hb
  have hcc : (concatDF a b).cols = requiredCols := by simpa [concatDF] using hac
  refine dfExt (by rw [ensure_cols, hcc]) ?_
  rw [ensure_rows_eq_of_cols _ hcc]
  show (a.rows ++ b.rows).map ensureRowFun = (concatDF a b).rows
  rw [List.map_append]
  have hra : a.rows.map ensureRowFun = a.rows := by
    have := ensure_rows_eq_of_cols a hac
    rw [ha] at this
    exact this.symm
  have hrb : b.rows.map ensureRowFun = b.rows := by
    have := ensure_rows_eq_of_cols b hbc
    rw [hb] at this
    exact this.symm
  rw [hra, hrb]
  rfl

theorem dropEmpty_of_noEmpty {df : DF} (h : noEmptyCode df) : dropEmptyCode df = df := by
  refine dfExt rfl ?_
  show df.rows.filter _ = df.rows
  exact List.filter_eq_self.2 h

theorem noEmpty_concat {a b : DF} (hcols : a.cols = b.cols)
    (ha : noEmptyCode a) (hb : noEmptyCode b) : noEmptyCode (concatDF a b) := by
  intro r hr
  rcases List.mem_append.1 hr with h | h
  · exact ha r h
  · show (match lookupCell a.cols r "processed_func" with
      | Cell.str s => !s.isEmpty
      | _ => false) = true
    rw [hcols]
    exact hb r h

/-- The `train_only` merge on already-normalized, empty-free pools:
train gets the concatenation, val and test pass through, and each output
is the input with the 0-based index column prepended. -/
theorem merge_train_only_eq (t v te s : DF)
    (ht : ensure_reposvul_schema t = t) (hv : ensure_reposvul_schema v = v)
    (hte : ensure_reposvul_schema te = te) (hs : ensure_reposvul_schema s = s)
    (hne_t : noEmptyCode t) (hne_v : noEmptyCode v)
    (hne_te : noEmptyCode te) (hne_s : noEmptyCode s) :
    merge_train_only t v te s =
      (add_index_column (concatDF t s), add_index_column v, add_index_column te) := by
  have hcols : t.cols = s.cols := by
    rw [ensure_cols_of_fixed ht, ensure_cols_of_fixed hs]
  unfold merge_train_only
  rw [dropEmpty_of_noEmpty (noEmpty_concat hcols hne_t hne_s),
    dropEmpty_of_noEmpty hne_v, dropEmpty_of_noEmpty hne_te,
    ensure_fixed_concat ht hs, hv, hte]

theorem normOp_default :
    ∀ c ∈ requiredCols,
      normOp c (defaultCell c) = (if c = "target" then Cell.int 0 else defaultCell c) := by
  decide

theorem normOp_target (v : Cell) :
    normOp "target" v = Cell.int (pyTrunc ((toNumericCell v).getD 0)) := rfl

/-- C1 counterexample: with a real val pool containing the same code text
as a synthetic row, `val_out` under `train_only` has a row whose content
fingerprint equals that of a row of the synthetic pool — the synthetic
rows are never overlap-checked against val/test, so the claimed
fingerprint disjointness is false. -/
theorem claim_C1_counterexample :
    ∃ i < ((merge_train_only tC1 vC1 teC1 sC1).2.1).rows.length,
      ∃ j < sC1.rows.length,
        rowFingerprint (merge_train_only tC1 vC1 teC1 sC1).2.1 i = rowFingerprint sC1 j := by
  refine ⟨0, by decide, 0, by decide, by decide⟩

/-- C1 (amended): under the `train_only` policy, for already-normalized
pools whose rows all carry non-empty code, the merger returns
`train_out = concat(real_train, synth_pool)`, `val_out = real_val` and
`test_out = real_test`, each with the 0-based index column prepended; in
particular no synthetic row is appended to `val_out` or `test_out` (their
data rows are exactly the real val/test rows).  A row of `val_out` or
`test_out` may still share a content fingerprint with a synthetic row
when the real evaluation data coincidentally contains the same code. -/
theorem claim_C1_amended (t v te s : DF)
    (ht : ensure_reposvul_schema t = t) (hv : ensure_reposvul_schema v = v)
    (hte : ensure_reposvul_schema te = te) (hs : ensure_reposvul_schema s = s)
    (hne_t : noEmptyCode t) (hne_v : noEmptyCode v)
    (hne_te : noEmptyCode te) (hne_s : noEmptyCode s) :
    merge_train_only t v te s =
      (add_index_column (concatDF t s), add_index_column v, add_index_column te) :=
  merge_train_only_eq t v te s ht hv hte hs hne_t hne_v hne_te hne_s

theorem claim_C1_witness :
    (ensure_reposvul_schema tC1 = tC1 ∧ ensure_reposvul_schema vC1 = vC1 ∧
     ensure_reposvul_schema teC1 = teC1 ∧ ensure_reposvul_schema sC1 = sC1) ∧
    (noEmptyCode tC1 ∧ noEmptyCode vC1 ∧ noEmptyCode teC1 ∧ noEmptyCode sC1) ∧
    merge_train_only tC1 vC1 teC1 sC1 =
      (add_index_column (concatDF tC1 sC1), add_index_column vC1, add_index_column teC1) :=
  ⟨⟨by decide, by decide, by decide, by decide⟩,
   ⟨by decide, by decide, by decide, by decide⟩,
   claim_C1_amended tC1 vC1 teC1 sC1 (by decide) (by decide) (by decide) (by decide)
     (by decide) (by decide) (by decide) (by decide)⟩

/-- C2: the extractor resolves before-code, label and after-code exactly
as the spec's ordered fallback chain (`extract_spec` is that chain written
from the claim's words), and after-code is never empty once before-code is
non-empty. -/
theorem claim_C2 (d : JObj) :
    extract_code_and_label d = extract_spec d ∧
    ((extract_code_and_label d).1 ≠ [] → (extract_code_and_label d).2.2 ≠ []) :=
  ⟨extract_eq_spec d, extract_after_of_before d⟩

theorem claim_C2_witness :
    extract_code_and_label dC2 = extract_spec dC2 ∧
    (extract_code_and_label dC2).1 ≠ [] ∧ (extract_code_and_label dC2).2.2 ≠ [] :=
  ⟨(claim_C2 dC2).1, by decide, (claim_C2 dC2).2 (by decide)⟩

/-- C3 counterexample: the numeric value 1/2 equals neither 0 nor 1, yet
label coercion resolves it to 0 (Python `int(0.5)` truncates before the
membership test), refuting "a numeric value is kept only if it equals 0
or 1 and is otherwise unresolved". -/
theorem claim_C3_counterexample :
    to_int_label (JVal.num (1 / 2)) = some 0 ∧ (1 / 2 : ℚ) ≠ 0 ∧ (1 / 2 : ℚ) ≠ 1 := by
  have hnum : ((1 : ℚ) / 2).num = 1 := by norm_num
  have hden : ((1 : ℚ) / 2).den = 2 := by norm_num
  refine ⟨?_, by norm_num, by norm_num⟩
  simp only [to_int_label, pyTrunc, hnum, hden]
  decide

/-- C3 (amended): label coercion maps booleans to 0/1; a numeric value is
truncated toward zero and the truncation is kept iff it equals 0 or 1 (so
0.5 resolves to 0 and 1.9 to 1); a string is trimmed and lowercased and
accepted iff it equals "0", "1", "false" or "true"; null, arrays and
objects are unresolved. -/
theorem claim_C3_amended :
    (∀ b : Bool, to_int_label (.bool b) = some (if b then 1 else 0)) ∧
    (∀ q : ℚ, to_int_label (.num q) =
      (if pyTrunc q = 0 ∨ pyTrunc q = 1 then some (pyTrunc q) else none)) ∧
    (∀ s : List Char, to_int_label (.str s) =
      (let t := (pyStrip s).map Char.toLower
       if t = "0".toList then some 0
       else if t = "1".toList then some 1
       else if t = "false".toList then some 0
       else if t = "true".toList then some 1
       else none)) ∧
    to_int_label .null = none ∧
    (∀ xs, to_int_label (.arr xs) = none) ∧
    (∀ fs, to_int_label (.obj fs) = none) :=
  ⟨fun b => by cases b <;> rfl, fun q => rfl, fun s => rfl, rfl, fun xs => rfl, fun fs => rfl⟩

/-- C4 (counterexample): the claim fails as stated.  At ratios
`(2, -5, 4)`, which sum to 1, on a pool of four canonical rows the three
splitter outputs hold 8 rows in total (not 4), and the pool's row appears
in both train and test: the Python slices `b[:n_tr]`, `b[n_tr:n_tr+n_va]`,
`b[n_tr+n_va:]` wrap negative bounds around from the end of the bucket,
so rows are duplicated across splits once a ratio is negative. -/
theorem claim_C4_counterexample :
    ((2 : ℚ) + -5 + 4 = 1) ∧
    (∀ r ∈ poolC4cex, r.target = 0 ∨ r.target = 1) ∧
    poolC4cex.length = 4 ∧
    (stratified_split ⟨7⟩ poolC4cex 123456 (2, -5, 4)).1.1.length +
      (stratified_split ⟨7⟩ poolC4cex 123456 (2, -5, 4)).1.2.1.length +
      (stratified_split ⟨7⟩ poolC4cex 123456 (2, -5, 4)).1.2.2.length = 8 ∧
    rowP 1 ∈ (stratified_split ⟨7⟩ poolC4cex 123456 (2, -5, 4)).1.1 ∧
    rowP 1 ∈ (stratified_split ⟨7⟩ poolC4cex 123456 (2, -5, 4)).1.2.2 := by
  have hpos : poolC4cex.filter (fun r => r.target == 1) = poolC4cex := by decide
  have hneg : poolC4cex.filter (fun r => r.target == 0) = [] := by decide
  have hp4 : poolC4cex.length = 4 := by decide
  have hp0 : ([] : List OutRow).length = 0 := rfl
  have e1 : bucketSliceLens 4 (2, -5, 4) = (4, 0, 4) := by
    have htr : pyTrunc (((4 : Nat) : ℚ) * 2) = 8 := by
      have hn : (((4 : Nat) : ℚ) * 2).num = 8 := by norm_num
      have hd : (((4 : Nat) : ℚ) * 2).den = 1 := by norm_num
      unfold pyTrunc
      rw [hn, hd]
      decide
    have hva : pyTrunc (((4 : Nat) : ℚ) * -5) = -20 := by
      have hn : (((4 : Nat) : ℚ) * -5).num = -20 := by norm_num
      have hd : (((4 : Nat) : ℚ) * -5).den = 1 := by norm_num
      unfold pyTrunc
      rw [hn, hd]
      decide
    simp only [bucketSliceLens, htr, hva]
    decide
  have e2 : bucketSliceLens 0 (2, -5, 4) = (0, 0, 0) := by
    have htr : pyTrunc (((0 : Nat) : ℚ) * 2) = 0 := by
      have hn : (((0 : Nat) : ℚ) * 2).num = 0 := by norm_num
      have hd : (((0 : Nat) : ℚ) * 2).den = 1 := by norm_num
      unfold pyTrunc
      rw [hn, hd]
      decide
    have hva : pyTrunc (((0 : Nat) : ℚ) * -5) = 0 := by
      have hn : (((0 : Nat) : ℚ) * -5).num = 0 := by norm_num
      have hd : (((0 : Nat) : ℚ) * -5).den = 1 := by norm_num
      unfold pyTrunc
      rw [hn, hd]
      decide
    simp only [bucketSliceLens, htr, hva]
    decide
  obtain ⟨l1, l2, l3⟩ := stratified_split_lengths ⟨7⟩ poolC4cex 123456 (2, -5, 4)
  simp only [hpos, hneg, hp4, hp0, e1, e2, Nat.add_zero] at l1 l2 l3
  obtain ⟨s1, s2, s3⟩ := stratified_split_subsets ⟨7⟩ poolC4cex 123456 (2, -5, 4)
  have hall : ∀ x ∈ poolC4cex, x = rowP 1 := by decide
  have hne1 : (stratified_split ⟨7⟩ poolC4cex 123456 (2, -5, 4)).1.1 ≠ [] := by
    intro h
    rw [h, hp0] at l1
    exact absurd l1 (by decide)
  have hne3 : (stratified_split ⟨7⟩ poolC4cex 123456 (2, -5, 4)).1.2.2 ≠ [] := by
    intro h
    rw [h, hp0] at l3
    exact absurd l3 (by decide)
  refine ⟨by norm_num, by decide, hp4, ?_, ?_, ?_⟩
  · rw [l1, l2, l3]
  · obtain ⟨x, hx⟩ := List.exists_mem_of_ne_nil _ hne1
    exact (hall x (s1 x hx)) ▸ hx
  · obtain ⟨x, hx⟩ := List.exists_mem_of_ne_nil _ hne3
    exact (hall x (s3 x hx)) ▸ hx

/-- C4 (amended): for a pool of canonical rows (target 0 or 1 everywhere)
and NONNEGATIVE ratios summing to 1, the stratified splitter's three
outputs are a permutation of the pool: sizes add up and every row
occurrence lands in exactly one split.  (The nonnegativity restriction is
needed: with a negative ratio, Python's slice bounds wrap around from the
end of the bucket and rows are duplicated across splits.) -/
theorem claim_C4_amended (g0 : RandState) (rows : List OutRow) (seed : Int)
    (r0 r1 r2 : ℚ) (hsum : r0 + r1 + r2 = 1)
    (h0 : 0 ≤ r0) (h1 : 0 ≤ r1) (h2 : 0 ≤ r2)
    (hlab : ∀ r ∈ rows, r.target = 0 ∨ r.target = 1) :
    ((stratified_split g0 rows seed (r0, r1, r2)).1.1 ++
     ((stratified_split g0 rows seed (r0, r1, r2)).1.2.1 ++
      (stratified_split g0 rows seed (r0, r1, r2)).1.2.2)).Perm rows ∧
    (stratified_split g0 rows seed (r0, r1, r2)).1.1.length +
      (stratified_split g0 rows seed (r0, r1, r2)).1.2.1.length +
      (stratified_split g0 rows seed (r0, r1, r2)).1.2.2.length = rows.length ∧
    ∀ x : OutRow,
      (stratified_split g0 rows seed (r0, r1, r2)).1.1.count x +
        (stratified_split g0 rows seed (r0, r1, r2)).1.2.1.count x +
        (stratified_split g0 rows seed (r0, r1, r2)).1.2.2.count x = rows.count x := by
  have hxy : ∀ n : Nat, pySliceIdx n (pyTrunc ((n : ℚ) * r0)) ≤
      pySliceIdx n (pyTrunc ((n : ℚ) * r0) + pyTrunc ((n : ℚ) * r1)) := by
    intro n
    have ha : 0 ≤ pyTrunc ((n : ℚ) * r0) :=
      pyTrunc_nonneg (mul_nonneg (Nat.cast_nonneg n) h0)
    have hb : 0 ≤ pyTrunc ((n : ℚ) * r1) :=
      pyTrunc_nonneg (mul_nonneg (Nat.cast_nonneg n) h1)
    exact pySliceIdx_mono ha (le_add_of_nonneg_right hb)
  have main : ((stratified_split g0 rows seed (r0, r1, r2)).1.1 ++
      ((stratified_split g0 rows seed (r0, r1, r2)).1.2.1 ++
       (stratified_split g0 rows seed (r0, r1, r2)).1.2.2)).Perm rows := by
    simp only [stratified_split]
    refine ((pyShuffle_perm _ _).append
      ((pyShuffle_perm _ _).append (pyShuffle_perm _ _))).trans ?_
    refine (interleave_perm _ _ _ _ _ _).trans ?_
    rw [bucket_reassemble _ (hxy _), bucket_reassemble _ (hxy _)]
    exact ((pyShuffle_perm _ _).append (pyShuffle_perm _ _)).trans (pos_neg_perm rows hlab)
  refine ⟨main, ?_, ?_⟩
  · have := main.length_eq
    simpa [Nat.add_assoc] using this
  · intro x
    have := main.count_eq x
    simpa [List.count_append, Nat.add_assoc] using this

theorem claim_C4_witness :
    ((4 / 5 : ℚ) + 1 / 10 + 1 / 10 = 1) ∧
    ((0 : ℚ) ≤ 4 / 5 ∧ (0 : ℚ) ≤ 1 / 10 ∧ (0 : ℚ) ≤ 1 / 10) ∧
    (∀ r ∈ poolC4, r.target = 0 ∨ r.target = 1) ∧
    (((stratified_split ⟨7⟩ poolC4 123456 (4 / 5, 1 / 10, 1 / 10)).1.1 ++
      ((stratified_split ⟨7⟩ poolC4 123456 (4 / 5, 1 / 10, 1 / 10)).1.2.1 ++
       (stratified_split ⟨7⟩ poolC4 123456 (4 / 5, 1 / 10, 1 / 10)).1.2.2)).Perm poolC4 ∧
     (stratified_split ⟨7⟩ poolC4 123456 (4 / 5, 1 / 10, 1 / 10)).1.1.length +
       (stratified_split ⟨7⟩ poolC4 123456 (4 / 5, 1 / 10, 1 / 10)).1.2.1.length +
       (stratified_split ⟨7⟩ poolC4 123456 (4 / 5, 1 / 10, 1 / 10)).1.2.2.length = poolC4.length ∧
     ∀ x : OutRow,
       (stratified_split ⟨7⟩ poolC4 123456 (4 / 5, 1 / 10, 1 / 10)).1.1.count x +
         (stratified_split ⟨7⟩ poolC4 123456 (4 / 5, 1 / 10, 1 / 10)).1.2.1.count x +
         (stratified_split ⟨7⟩ poolC4 123456 (4 / 5, 1 / 10, 1 / 10)).1.2.2.count x
           = poolC4.count x) :=
  ⟨by norm_num, ⟨by norm_num, by norm_num, by norm_num⟩, by decide,
   claim_C4_amended ⟨7⟩ poolC4 123456 (4 / 5) (1 / 10) (1 / 10) (by norm_num)
     (by norm_num) (by norm_num) (by norm_num) (by decide)⟩

/-- C5: the splitter is a pure function of `(pool, seed, ratios)`; the
pre-existing global generator state is discarded by `random.seed(seed)`,
so two invocations with identical arguments — under any prior global
state — produce identical `(train, val, test)` row sequences (and final
generator state). -/
theorem claim_C5 (g1 g2 : RandState) (rows : List OutRow) (seed : Int)
    (ratios : ℚ × ℚ × ℚ) :
    stratified_split g1 rows seed ratios = stratified_split g2 rows seed ratios := rfl

/-- C6: dedup keeps column structure, retains a subsequence of the input
rows (order preserved, every retained row occurs in the input), no two
retained rows share a fingerprint, and the retained rows are exactly the
first occurrence of each distinct fingerprint (`keepFirst`, written from
the spec's words).  Since the fingerprint hashes `processed_func` alone,
of two rows with equal code and different labels only the first-seen row
(label included) is kept. -/
theorem claim_C6 (df : DF) :
    (deduplicate_by_code df).cols = df.cols ∧
    (deduplicate_by_code df).rows.Sublist df.rows ∧
    (deduplicate_by_code df).rows.Pairwise
      (fun a b => rowKey df.cols a ≠ rowKey df.cols b) ∧
    (deduplicate_by_code df).rows = keepFirst (rowKey df.cols) df.rows :=
  ⟨rfl, dedupRows_sublist _ _ _, (dedupRows_pairwise _ _ _).1,
   dedupRows_eq_keepFirst _ _⟩

/-- C7 counterexample: on a frame missing the `file_language` column the
normalizer fills it with `"-"`, not the claimed `"C"` (the `fillna("C")`
in the source runs after `astype(str)` and can never fire). -/
theorem claim_C7_counterexample :
    dC7.hasCol "file_language" = false ∧
    DF.cell (ensure_reposvul_schema dC7) "file_language" 0 = Cell.str "-".toList ∧
    DF.cell (ensure_reposvul_schema dC7) "file_language" 0 ≠ Cell.str "C".toList := by
  refine ⟨by decide, by decide, by decide⟩

/-- C7 (amended): the normalizer returns exactly the canonical columns in
fixed order; every missing column is filled with its default — `"-"` for
all text fields (`file_language` included), `"[]"` for `flaw_line_index`,
`""` for `flaw_line` — and `target` becomes 0 when missing or
unparseable. -/
theorem claim_C7_amended (df : DF) (hwf : df.WF) (hnd : df.cols.Nodup) :
    (ensure_reposvul_schema df).cols = requiredCols ∧
    (∀ c ∈ requiredCols, df.hasCol c = false →
      ∀ i, i < df.rows.length →
        (ensure_reposvul_schema df).cell c i =
          (if c = "target" then Cell.int 0 else defaultCell c)) ∧
    (∀ i, i < df.rows.length → df.hasCol "target" = true →
      toNumericCell (df.cell "target" i) = none →
      (ensure_reposvul_schema df).cell "target" i = Cell.int 0) := by
  refine ⟨ensure_cols df, ?_, ?_⟩
  · intro c hc hmiss i hi
    rw [ensure_cell df hwf hnd hc i hi, hmiss]
    simp only [Bool.false_eq_true, if_false]
    exact normOp_default c hc
  · intro i hi hpres hunp
    have hmem : "target" ∈ requiredCols := by decide
    rw [ensure_cell df hwf hnd hmem i hi, if_pos hpres, normOp_target, hunp]
    decide

theorem claim_C7_witness :
    dC7.WF ∧ dC7.cols.Nodup ∧
    ((ensure_reposvul_schema dC7).cols = requiredCols ∧
     (∀ c ∈ requiredCols, dC7.hasCol c = false →
       ∀ i, i < dC7.rows.length →
         (ensure_reposvul_schema dC7).cell c i =
           (if c = "target" then Cell.int 0 else defaultCell c)) ∧
     (∀ i, i < dC7.rows.length → dC7.hasCol "target" = true →
       toNumericCell (dC7.cell "target" i) = none →
       (ensure_reposvul_schema dC7).cell "target" i = Cell.int 0)) :=
  ⟨by decide, by decide, claim_C7_amended dC7 (by decide) (by decide)⟩

/-- C8: schema normalization is idempotent on well-formed frames, never
drops rows (the row count is preserved), and acts rowwise — each output
row is a function of the corresponding input row alone, so rows are never
reordered; only the columns are affected. -/
theorem claim_C8 (df : DF) (hwf : df.WF) (hnd : df.cols.Nodup) :
    ensure_reposvul_schema (ensure_reposvul_schema df) = ensure_reposvul_schema df ∧
    (ensure_reposvul_schema df).rows.length = df.rows.length ∧
    ∃ g, (ensure_reposvul_schema df).rows = df.rows.map g :=
  ⟨ensure_idem df hwf hnd, ensure_rows_length df, ensure_rows_map df⟩

theorem claim_C8_witness :
    dC8.WF ∧ dC8.cols.Nodup ∧
    (ensure_reposvul_schema (ensure_reposvul_schema dC8) = ensure_reposvul_schema dC8 ∧
     (ensure_reposvul_schema dC8).rows.length = dC8.rows.length ∧
     ∃ g, (ensure_reposvul_schema dC8).rows = dC8.rows.map g) :=
  ⟨by decide, by decide, claim_C8 dC8 (by decide) (by decide)⟩

/-- C9 counterexample: a row whose label ("abc") cannot be resolved to
0/1 is nevertheless kept by the schema normalizer, with the label
silently defaulted to 0 — refuting "never kept with a defaulted label".
(The extraction stage does drop such records; the normalizer stage does
not.) -/
theorem claim_C9_counterexample :
    to_int_label (JVal.str "abc".toList) = none ∧
    toNumericCell (Cell.str "abc".toList) = none ∧
    (ensure_reposvul_schema dC9).rows.length = 1 ∧
    DF.cell (ensure_reposvul_schema dC9) "target" 0 = Cell.int 0 := by
  refine ⟨by decide, by decide, by decide, by decide⟩

/-- C9 (amended): in the extraction stage, a detail with non-empty code
and unresolvable label yields no row and increments `skip_no_label`, and
every row the row builder emits has target exactly 0 or 1; the schema
normalizer, by contrast, keeps rows with unparseable labels and defaults
`target` to 0. -/
theorem claim_C9_amended :
    (∀ objs : List JObj, ∀ r ∈ (iter_rows objs).1, r.target = 0 ∨ r.target = 1) ∧
    (∀ (obj : JObj) (st : Stats) (fs : JObj),
      (extract_code_and_label fs).1 ≠ [] →
      (extract_code_and_label fs).2.1 = none →
      processDetail obj st (.obj fs) =
        ([], { st with skip_no_label := st.skip_no_label + 1 })) :=
  ⟨fun objs => iterRowsAux_target objs _,
   fun obj st fs h1 h2 => processDetail_skip_label obj st fs h1 h2⟩

theorem claim_C9_witness :
    (((iter_rows objsC9).1.getD 0 rowDefaultC9).target = 0 ∨
     ((iter_rows objsC9).1.getD 0 rowDefaultC9).target = 1) ∧
    processDetail [] ⟨0, 0, 0, 0, 0⟩ (.obj fsC9) = ([], ⟨0, 0, 0, 1, 0⟩) :=
  ⟨claim_C9_amended.1 objsC9 _ (by decide),
   claim_C9_amended.2 [] ⟨0, 0, 0, 0, 0⟩ fsC9 (by decide) (by decide)⟩

/-- C10 counterexample: in the reposvul transform a malformed JSON line
(second input line here) aborts the whole run — `read_jsonl` calls
`json.loads` with no exception handler — refuting "the run is never
aborted by the malformed line". -/
theorem claim_C10_counterexample :
    transform_all [some objC10, none] = Except.error () := rfl

/-- C10 (amended): a malformed JSON line aborts the reposvul reader
(`read_jsonl` propagates the decode error); the primevul extractor skips
the line and continues — the written rows and the kept counter are those
of the stream without the line, and the line is counted only in the
aggregate total (no distinct malformed-line counter exists). -/
theorem claim_C10_amended :
    (∀ l1 l2 : List (Option JObj), read_jsonl (l1 ++ none :: l2) = Except.error ()) ∧
    (∀ l1 l2 : List (Option JObj),
      extract_c_functions (l1 ++ none :: l2) =
        ((extract_c_functions (l1 ++ l2)).1,
         (extract_c_functions (l1 ++ l2)).2.1 + 1,
         (extract_c_functions (l1 ++ l2)).2.2)) :=
  ⟨read_jsonl_error, fun l1 l2 => primevulAux_malformed l1 l2 0 0 0⟩

end LineVul
